import Mathlib

/-!
A shallow embedding of the pool allocator (`allocator.c` / `allocator.h`).

The allocator manages caller-supplied memory regions through an intrusive
circular singly-linked free list of `FreeNode` headers stored inside the
managed memory.  We model memory addresses as natural numbers (byte
addresses, with `0` playing the role of the null pointer), the header store
as a function from header addresses to `FreeNode` values, and the payload
byte store as a separate function from byte addresses to byte values.  The
allocator itself never reads a header through byte accesses nor a payload
byte through a header access, so keeping the two stores separate is
faithful to every behaviour the operations exhibit.

Machine-integer details are fixed to an LP64 platform, matching the C
source's types: `sizeof(FreeNode_t) = 16` (a `size_t` plus a pointer, the
flexible `size_t _align[]` member adding no size), `alignof(size_t) = 8`,
`SIZE_MAX = 2^64 - 1`.  `size_t` additions and subtractions that C defines
to wrap are taken modulo `2^64`; additions that are guarded against
overflow by the code itself are left as plain `Nat` operations.

The C `for`/`while` loops over the circular list are modelled as
fuel-indexed recursions; exhausting the fuel corresponds to the C loop not
having terminated yet (on a well-formed ring a fuel of the ring length
always suffices).  The spinlock only serialises the operations and has no
effect on their sequential semantics, so it is not modelled.
-/

namespace Alloc

/-- Value of `sizeof(FreeNode_t)` on LP64: one `size_t` plus one pointer. -/
def UNITSZ : Nat := 16

/-- Value of `alignof(size_t)` on LP64. -/
def SZALIGN : Nat := 8

/-- Modulus of `size_t` arithmetic. -/
def WORD : Nat := 2 ^ 64

/-- Value of `SIZE_MAX`. -/
def SIZE_MAX : Nat := 2 ^ 64 - 1

/-- The two-field block header `FreeNode_t`: `nunits` (block size in units,
header included) and `nxt` (address of the next free block; only meaningful
while the block is on the free list). -/
structure FreeNode where
  nunits : Nat
  nxt : Nat
  deriving DecidableEq

/-- The header store: the `FreeNode` value readable at each byte address.
Addresses not holding a real header read as garbage, exactly as in C. -/
def Heap : Type := Nat → FreeNode

/-- Store `n` into the `nunits` field of the header at address `a`. -/
def setNunits (h : Heap) (a n : Nat) : Heap :=
  fun x => if x = a then { h x with nunits := n } else h x

/-- Store `n` into the `nxt` field of the header at address `a`. -/
def setNxt (h : Heap) (a n : Nat) : Heap :=
  fun x => if x = a then { h x with nxt := n } else h x

/-- The state of one `allocator_t` (minus the spinlock, which has no
sequential effect): the free-list pointer `p` (`none` = `NULL`) and the
managed memory, split into the header store and the payload byte store. -/
structure AllocState where
  p : Option Nat
  hdr : Heap
  bytes : Nat → Nat

/-- Function `aln_offset`: least value to add to `base` to align it to `aln`. -/
def aln_offset (base aln : Nat) : Nat :=
  if base % aln = 0 then 0 else aln - base % aln

/-- The `for` loop of `allocator_alloc`: walk the ring from `prv`/`cur`
looking for the first block with `nunits ≥ need` (`need` is the rounded
request including the header unit).  `p0` is the value of `a->p` at entry
(the wrap sentinel).  Returns `none` when the walk wraps without a match
(or the fuel runs out); on a match returns the result pointer, the new
free-list pointer, and the updated header store. -/
def allocLoop (hdr : Heap) (need p0 : Nat) :
    Nat → Nat → Nat → Option (Nat × Option Nat × Heap)
  | _, _, 0 => none
  | prv, cur, fuel + 1 =>
    if (hdr cur).nunits ≥ need then
      if (hdr cur).nunits = need then
        -- unlink the block
        if (hdr prv).nxt ≠ (hdr cur).nxt then
          some (cur + UNITSZ, some prv, setNxt hdr prv (hdr cur).nxt)
        else
          -- freelist is a singleton; NULL signifies no freelist
          some (cur + UNITSZ, none, hdr)
      else
        -- adjust size and allocate from the tail
        let rest := (hdr cur).nunits - need
        let tail := cur + rest * UNITSZ
        some (tail + UNITSZ, some prv, setNunits (setNunits hdr cur rest) tail need)
    else if cur = p0 then
      none
    else
      allocLoop hdr need p0 cur (hdr cur).nxt fuel

/-- Operation `allocator_alloc(a, nbytes)`: K&R style next-fit allocation.  Returns
the result pointer (`none` = `NULL`) and the post state. -/
def allocator_alloc (a : AllocState) (nbytes fuel : Nat) : Option Nat × AllocState :=
  let inc := aln_offset nbytes UNITSZ
  if nbytes = 0 ∨ SIZE_MAX - inc < nbytes then
    (none, a)
  else
    match a.p with
    | none => (none, a)
    | some p0 =>
      -- round up nbytes to the next number of units, +1 unit for the header
      let need := (nbytes + inc) / UNITSZ + 1
      match allocLoop a.hdr need p0 p0 (a.hdr p0).nxt fuel with
      | none => (none, a)
      | some (res, p', hdr') => (some res, { a with p := p', hdr := hdr' })

/-- The insertion-point walk of `allocator_free`: starting at the cursor,
advance while `p` does not lie strictly between `cur` and `cur->nxt`,
breaking out at the wrap node when `p` lies outside the ring's address
span.  Returns the node after which `p` is to be inserted. -/
def freeFindLoop (hdr : Heap) (p : Nat) : Nat → Nat → Option Nat
  | _, 0 => none
  | cur, fuel + 1 =>
    if p > cur ∧ p < (hdr cur).nxt then some cur
    else if cur ≥ (hdr cur).nxt ∧ (p > cur ∨ p < (hdr cur).nxt) then some cur
    else freeFindLoop hdr p (hdr cur).nxt fuel

/-- The insertion/coalescing step of `allocator_free` once the insertion
node `cur` is known: coalesce `p` with `cur->nxt` when they touch, then
with `cur` when those touch, updating the header store in the C statement
order (`nunits` sums are `size_t` additions, hence mod `2^64`). -/
def freeInsert (hdr : Heap) (p cur : Nat) : Heap :=
  let hdr1 :=
    if p + (hdr p).nunits * UNITSZ = (hdr cur).nxt then
      -- coalesce with nxt
      let nx := (hdr cur).nxt
      setNxt (setNunits hdr p (((hdr p).nunits + (hdr nx).nunits) % WORD)) p (hdr nx).nxt
    else
      -- insert p after cur
      setNxt hdr p (hdr cur).nxt
  if cur + (hdr1 cur).nunits * UNITSZ = p then
    -- coalesce with prv
    setNxt (setNunits hdr1 cur (((hdr1 cur).nunits + (hdr1 p).nunits) % WORD)) cur (hdr1 p).nxt
  else
    -- insert p after cur
    setNxt hdr1 cur p

/-- Operation `allocator_free(a, ptr)`: release the block whose payload starts at
`ptr` back into the free list, coalescing with address-adjacent free
blocks.  A `0` (null) pointer is a no-op.  (Fuel exhaustion in the walk,
impossible on a well-formed ring, leaves the state unchanged.) -/
def allocator_free (a : AllocState) (ptr fuel : Nat) : AllocState :=
  if ptr = 0 then a
  else
    let p := ptr - UNITSZ
    match a.p with
    | none =>
      -- no freelist: create a singleton with p
      { a with p := some p, hdr := setNxt a.hdr p p }
    | some start =>
      match freeFindLoop a.hdr p start fuel with
      | none => a
      | some cur => { a with p := some cur, hdr := freeInsert a.hdr p cur }

/-- Operation `allocator_add(a, p, nbytes)`: seed the byte region `[p, p + nbytes)`
into the free list.  The header is placed at the first address of the
region aligned to `alignof(size_t)`; the usable length is rounded down to
whole units; too-small regions are silently ignored.  (`nbytes - inc` is a
`size_t` subtraction, hence mod `2^64`.) -/
def allocator_add (a : AllocState) (p nbytes fuel : Nat) : AllocState :=
  let inc := aln_offset p SZALIGN
  let nunits := ((nbytes + WORD - inc) % WORD) / UNITSZ
  if nbytes > inc + UNITSZ ∧ nunits ≠ 0 then
    allocator_free { a with hdr := setNunits a.hdr (p + inc) nunits } (p + inc + UNITSZ) fuel
  else a

/-- Operation `allocator_allocsz(p)`: payload capacity in bytes of the allocation
whose payload starts at `p`: `(nunits - 1) * UNITSZ` in `size_t`
arithmetic; `0` for null. -/
def allocator_allocsz (hdr : Heap) (p : Nat) : Nat :=
  if p ≠ 0 then (((hdr (p - UNITSZ)).nunits + WORD - 1) % WORD) * UNITSZ % WORD else 0

/-- Model of `memcpy(dst, src, len)` on the payload byte store (source and
destination do not overlap in any defined use). -/
def memcpyBytes (bytes : Nat → Nat) (dst src len : Nat) : Nat → Nat :=
  fun x => if dst ≤ x ∧ x < dst + len then bytes (src + (x - dst)) else bytes x

/-- Operation `allocator_realloc(a, p, nbytes)`: null `p` behaves as `alloc`; zero
`nbytes` frees and returns null; otherwise return `p` itself when its
capacity already suffices, else allocate anew, copy the old payload, free
the old block — returning null (old block intact) when the inner
allocation fails. -/
def allocator_realloc (a : AllocState) (p nbytes fuel : Nat) : Option Nat × AllocState :=
  if p = 0 then
    allocator_alloc a nbytes fuel
  else if nbytes = 0 then
    (none, allocator_free a p fuel)
  else if allocator_allocsz a.hdr p < nbytes then
    match allocator_alloc a nbytes fuel with
    | (none, a1) => (none, a1)
    | (some res, a1) =>
      let len := allocator_allocsz a1.hdr p
      let a2 := { a1 with bytes := memcpyBytes a1.bytes res p len }
      (some res, allocator_free a2 p fuel)
  else
    (some p, a)

/-- Read off the cursor's `nxt`-chain until it returns to `p0` (inclusive
of the starting node, exclusive of the closing repeat): the observable
content of the circular free list.  `none` when the chain does not close
within the fuel. -/
def chainFrom (hdr : Heap) (p0 : Nat) : Nat → Nat → Option (List Nat)
  | _, 0 => none
  | cur, fuel + 1 =>
    if (hdr cur).nxt = p0 then some [cur]
    else (chainFrom hdr p0 (hdr cur).nxt fuel).map (cur :: ·)

/-- The free list observed from the cursor, as `(address, nunits)` pairs. -/
def freeList (a : AllocState) (fuel : Nat) : Option (List (Nat × Nat)) :=
  match a.p with
  | none => some []
  | some p0 => (chainFrom a.hdr p0 p0 fuel).map (List.map fun x => (x, (a.hdr x).nunits))

/-- A fresh (default-initialized) allocator over garbage memory. -/
def initState : AllocState :=
  { p := none, hdr := fun _ => { nunits := 0, nxt := 0 }, bytes := fun _ => 0 }

/-- Scenario driver: call `alloc nbytes` repeatedly (at most `k` times)
until it returns null, collecting the returned pointers in order. -/
def allocMany (a : AllocState) (nbytes fuel : Nat) : Nat → List Nat × AllocState
  | 0 => ([], a)
  | k + 1 =>
    match allocator_alloc a nbytes fuel with
    | (none, a') => ([], a')
    | (some r, a') =>
      let (l, a'') := allocMany a' nbytes fuel k
      (r :: l, a'')

/-- Scenario driver: free the listed pointers in order. -/
def freeAll (a : AllocState) (fuel : Nat) : List Nat → AllocState
  | [] => a
  | x :: xs => freeAll (allocator_free a x fuel) fuel xs

/-- The header store after the tail split of `allocator_alloc` on a block
at `cur` with `nunits > need`: the low block's `nunits` is reduced in place
and a fresh header carrying `nunits = need` is written at the tail. -/
def splitHeap (hdr : Heap) (cur need : Nat) : Heap :=
  setNunits (setNunits hdr cur ((hdr cur).nunits - need))
    (cur + ((hdr cur).nunits - need) * UNITSZ) need

/-- The free list is a ring with node list `l` (cursor first): following
`nxt` from the cursor visits exactly the nodes of `l` and returns to the
cursor in exactly `l.length` steps. -/
def IsRing (hdr : Heap) (p0 : Nat) (l : List Nat) : Prop :=
  chainFrom hdr p0 p0 l.length = some l

instance (hdr : Heap) (p0 : Nat) (l : List Nat) : Decidable (IsRing hdr p0 l) := by
  unfold IsRing; infer_instance

/-- The size-validity test at the top of `allocator_alloc`: the request is
rejected when it is zero or when rounding it up would overflow `size_t`. -/
def allocInvalidSize (n : Nat) : Prop :=
  n = 0 ∨ SIZE_MAX - aln_offset n UNITSZ < n

instance (n : Nat) : Decidable (allocInvalidSize n) := by
  unfold allocInvalidSize; infer_instance

/-- The unit count a request for `n` bytes occupies: `n` rounded up to
whole units, plus one unit for the header. -/
def allocNeed (n : Nat) : Nat :=
  (n + aln_offset n UNITSZ) / UNITSZ + 1

/-- Scenario: a fresh allocator seeded with one aligned region of exactly
10 units (`[0, 160)`). -/
def seed10 : AllocState := allocator_add initState 0 160 100

/-- Scenario: repeatedly call `alloc(1)` on `seed10` until it returns
null. -/
def run10 : List Nat × AllocState := allocMany seed10 1 100 20

/-- Scenario: a fresh allocator seeded with a 5-unit region (`[0, 80)`). -/
def seed5 : AllocState := allocator_add initState 0 80 100

/-- Scenario: first `alloc(UNITSZ)` on `seed5`. -/
def c5a : Option Nat × AllocState := allocator_alloc seed5 16 100

/-- Scenario: second `alloc(UNITSZ)` on `seed5`. -/
def c5b : Option Nat × AllocState := allocator_alloc c5a.2 16 100

/-- Scenario: third `alloc(UNITSZ)` on `seed5`. -/
def c5c : Option Nat × AllocState := allocator_alloc c5b.2 16 100

/-- Scenario: a fresh allocator seeded with 10 units at base 16
(`[16, 176)`), for the tail-split scenario. -/
def seedC4 : AllocState := allocator_add initState 16 160 100

/-- Scenario: one `alloc(UNITSZ)` on `seed10`; the returned payload is
`144` and the live block `[128, 160)` has a 2-unit header at `128`. -/
def p10 : Option Nat × AllocState := allocator_alloc seed10 16 100

/-- Block-header discipline for a node of the free list: at least one
unit, and a payload (one unit above the header) aligned to
`alignof(size_t)` — the alignment `allocator_add` actually establishes. -/
def GoodBlock (hdr : Heap) (x : Nat) : Prop :=
  1 ≤ (hdr x).nunits ∧ (x + UNITSZ) % SZALIGN = 0

instance (hdr : Heap) (x : Nat) : Decidable (GoodBlock hdr x) := by
  unfold GoodBlock; infer_instance

/-- The block discipline over the whole allocator: whenever the free list
is non-empty, the cursor anchors a closed ring, every node of which is a
`GoodBlock`. -/
def BlocksOK (a : AllocState) : Prop :=
  ∀ p0, a.p = some p0 →
    ∃ l, IsRing a.hdr p0 l ∧ ∀ x ∈ l, GoodBlock a.hdr x

/-- Valid-usage precondition of `allocator_free a ptr`: `ptr` is null or
the payload of a good block whose header is off the free ring, and
absorbing that block cannot overflow the `size_t` unit counts. -/
def FreeOK (a : AllocState) (ptr : Nat) : Prop :=
  (ptr = 0 ∨ (UNITSZ ≤ ptr ∧ GoodBlock a.hdr (ptr - UNITSZ))) ∧
  (∀ p0 l, a.p = some p0 → IsRing a.hdr p0 l →
    ptr - UNITSZ ∉ l ∧
    (a.hdr (ptr - UNITSZ)).nunits + ((l.map fun x => (a.hdr x).nunits).sum) < WORD)

/-- Valid-usage precondition of `allocator_add a p nbytes`: the aligned
seed header lands off the free ring, and the seeded unit count cannot
overflow the `size_t` unit counts when merged into the ring. -/
def AddOK (a : AllocState) (p nbytes : Nat) : Prop :=
  ∀ p0 l, a.p = some p0 → IsRing a.hdr p0 l →
    p + aln_offset p SZALIGN ∉ l ∧
    ((nbytes + WORD - aln_offset p SZALIGN) % WORD) / UNITSZ
      + ((l.map fun x => (a.hdr x).nunits).sum) < WORD

/-- Scenario: a fresh allocator seeded with a 4-unit region (`[0, 64)`). -/
def seed4 : AllocState := allocator_add initState 0 64 100

/-- Scenario: first `alloc(UNITSZ)` on `seed4` (returns payload `48`, the
live block `[32, 64)`). -/
def bug1 : Option Nat × AllocState := allocator_alloc seed4 16 100

/-- Scenario: second `alloc(UNITSZ)` after `bug1` (returns payload `16`,
the live block `[0, 32)`; the free list is now empty). -/
def bug2 : Option Nat × AllocState := allocator_alloc bug1.2 16 100

/-- Scenario: free the two live blocks of `bug2` in allocation order: the
first free rebuilds a singleton ring `[32]`; the second frees the block
`[0, 32)`, which touches that ring's only node from below. -/
def bugState : AllocState :=
  allocator_free (allocator_free bug2.2 (bug1.1.getD 0) 100) (bug2.1.getD 0) 100

/-- Writing `nunits` leaves every `nxt` field unchanged. -/
theorem setNunits_nxt (h : Heap) (a n x : Nat) :
    (setNunits h a n x).nxt = (h x).nxt := by
  unfold setNunits; split <;> rfl

/-- Writing `nxt` leaves every `nunits` field unchanged. -/
theorem setNxt_nunits (h : Heap) (a n x : Nat) :
    (setNxt h a n x).nunits = (h x).nunits := by
  unfold setNxt; split <;> rfl

/-- Reading a header other than the one written. -/
theorem setNunits_ne (h : Heap) (a n x : Nat) (hx : x ≠ a) :
    setNunits h a n x = h x := by
  unfold setNunits; rw [if_neg hx]

/-- Reading back the header just written. -/
theorem setNunits_self (h : Heap) (a n : Nat) :
    setNunits h a n a = { h a with nunits := n } := by
  unfold setNunits; rw [if_pos rfl]

/-- Reading a header other than the one written. -/
theorem setNxt_ne (h : Heap) (a n x : Nat) (hx : x ≠ a) :
    setNxt h a n x = h x := by
  unfold setNxt; rw [if_neg hx]

/-- Reading back the header just written. -/
theorem setNxt_self (h : Heap) (a n : Nat) :
    setNxt h a n a = { h a with nxt := n } := by
  unfold setNxt; rw [if_pos rfl]

/-- The rounding offset to the next unit boundary is less than a unit. -/
theorem aln_offset_unit_lt (base : Nat) : aln_offset base UNITSZ < UNITSZ := by
  unfold aln_offset UNITSZ; split <;> omega

/-- Adding the rounding offset lands exactly on a unit boundary. -/
theorem aln_offset_unit_mod (base : Nat) :
    (base + aln_offset base UNITSZ) % UNITSZ = 0 := by
  unfold aln_offset UNITSZ; split <;> omega

/-- On an invalid size (zero or overflowing), `allocator_alloc` returns
null and the state unchanged. -/
theorem allocator_alloc_invalid (a : AllocState) (n fuel : Nat)
    (hg : allocInvalidSize n) : allocator_alloc a n fuel = (none, a) := by
  unfold allocator_alloc
  unfold allocInvalidSize at hg
  rw [if_pos hg]

/-- On an empty free list (and a valid size), `allocator_alloc` returns
null and the state unchanged. -/
theorem allocator_alloc_empty (a : AllocState) (n fuel : Nat)
    (hg : ¬ allocInvalidSize n) (hp : a.p = none) :
    allocator_alloc a n fuel = (none, a) := by
  unfold allocator_alloc
  unfold allocInvalidSize at hg
  rw [if_neg hg, hp]

/-- With a valid size and a non-empty free list, `allocator_alloc` is the
ring walk `allocLoop` from the cursor. -/
theorem allocator_alloc_eq_loop (a : AllocState) (n fuel p0 : Nat)
    (hg : ¬ allocInvalidSize n) (hp : a.p = some p0) :
    allocator_alloc a n fuel =
      match allocLoop a.hdr (allocNeed n) p0 p0 (a.hdr p0).nxt fuel with
      | none => (none, a)
      | some (res, p', hdr') => (some res, { a with p := p', hdr := hdr' }) := by
  unfold allocator_alloc allocNeed
  unfold allocInvalidSize at hg
  rw [if_neg hg, hp]

/-- A successful `allocLoop` returns a payload pointer at least one unit
up in memory, whose block header (one unit below it, in the updated
store) carries exactly the requested unit count. -/
theorem allocLoop_some_spec (hdr : Heap) (need p0 : Nat) :
    ∀ (fuel prv cur res : Nat) (p' : Option Nat) (hdr' : Heap),
      allocLoop hdr need p0 prv cur fuel = some (res, p', hdr') →
      UNITSZ ≤ res ∧ (hdr' (res - UNITSZ)).nunits = need := by
  intro fuel
  induction fuel with
  | zero => intro prv cur res p' hdr' h; simp [allocLoop] at h
  | succ f ih =>
    intro prv cur res p' hdr' h
    rw [allocLoop] at h
    split_ifs at h with h1 h2 h3 h4
    · -- exact match, proper unlink
      rw [Option.some.injEq, Prod.mk.injEq, Prod.mk.injEq] at h
      obtain ⟨hres, -, hh⟩ := h
      subst hh
      refine ⟨by omega, ?_⟩
      have : res - UNITSZ = cur := by omega
      rw [this, setNxt_nunits, h2]
    · -- exact match, singleton list
      rw [Option.some.injEq, Prod.mk.injEq, Prod.mk.injEq] at h
      obtain ⟨hres, -, hh⟩ := h
      subst hh
      refine ⟨by omega, ?_⟩
      have : res - UNITSZ = cur := by omega
      rw [this, h2]
    · -- split from the tail
      rw [Option.some.injEq, Prod.mk.injEq, Prod.mk.injEq] at h
      obtain ⟨hres, -, hh⟩ := h
      subst hh
      refine ⟨by omega, ?_⟩
      have : res - UNITSZ = cur + ((hdr cur).nunits - need) * UNITSZ := by omega
      rw [this, setNunits_self]
    · -- continue walking (the wrapped-around branch closes by itself)
      exact ih cur (hdr cur).nxt res p' hdr' h

/-- C4: when `allocator_alloc`'s walk finds a block at `cur` with
`nunits` strictly greater than the needed count, it splits from the
high-address end: the low block's `nunits` is reduced in place, a new
header with `nunits = need` is written at the tail, the tail's payload is
returned, every `nxt` link is left unchanged, and no other header is
touched.  Concretely, seeding 10 units at base 16 (region `[16, 176)`),
`alloc(UNITSZ)` returns payload `160`, which lies in the high-address half
`[96, 176)`, and the remaining free block `(16, 8)` covers the low end. -/
theorem C4_alloc_splits_from_tail :
    (∀ (hdr : Heap) (need p0 prv cur fuel : Nat),
      need < (hdr cur).nunits →
        allocLoop hdr need p0 prv cur (fuel + 1) =
          some (cur + ((hdr cur).nunits - need) * UNITSZ + UNITSZ, some prv,
            splitHeap hdr cur need) ∧
        (splitHeap hdr cur need cur).nunits = (hdr cur).nunits - need ∧
        (splitHeap hdr cur need
            (cur + ((hdr cur).nunits - need) * UNITSZ)).nunits = need ∧
        (∀ x, (splitHeap hdr cur need x).nxt = (hdr x).nxt) ∧
        (∀ x, x ≠ cur → x ≠ cur + ((hdr cur).nunits - need) * UNITSZ →
          splitHeap hdr cur need x = hdr x)) ∧
    ((allocator_alloc seedC4 16 100).1 = some 160 ∧
      16 + 10 * UNITSZ / 2 ≤ 160 ∧ 160 + UNITSZ ≤ 16 + 10 * UNITSZ ∧
      freeList (allocator_alloc seedC4 16 100).2 100 = some [(16, 8)]) := by
  constructor
  · intro hdr need p0 prv cur fuel hlt
    have hge : (hdr cur).nunits ≥ need := Nat.le_of_lt hlt
    have hne : ¬ (hdr cur).nunits = need := Nat.ne_of_gt hlt
    have hcur : cur ≠ cur + ((hdr cur).nunits - need) * UNITSZ := by
      have h2 : 0 < ((hdr cur).nunits - need) * UNITSZ :=
        Nat.mul_pos (by omega) (by norm_num [UNITSZ])
      omega
    refine ⟨?_, ?_, ?_, ?_, ?_⟩
    · rw [allocLoop, if_pos hge, if_neg hne]; rfl
    · rw [splitHeap, setNunits_ne _ _ _ _ hcur, setNunits_self]
    · rw [splitHeap, setNunits_self]
    · intro x; rw [splitHeap, setNunits_nxt, setNunits_nxt]
    · intro x hx1 hx2
      rw [splitHeap, setNunits_ne _ _ _ _ hx2, setNunits_ne _ _ _ _ hx1]
  · decide

/-- Witness for C4's universal part: in `seed10`'s single 10-unit block at
`0`, a request needing 2 units splits off the tail at `128`. -/
theorem C4_alloc_splits_from_tail_witness :
    allocLoop seed10.hdr 2 0 0 (seed10.hdr 0).nxt (99 + 1) =
      some (0 + ((seed10.hdr 0).nunits - 2) * UNITSZ + UNITSZ, some 0,
        splitHeap seed10.hdr 0 2) ∧
    (splitHeap seed10.hdr 0 2 0).nunits = (seed10.hdr 0).nunits - 2 ∧
    (splitHeap seed10.hdr 0 2
        (0 + ((seed10.hdr 0).nunits - 2) * UNITSZ)).nunits = 2 ∧
    (∀ x, (splitHeap seed10.hdr 0 2 x).nxt = (seed10.hdr x).nxt) ∧
    (∀ x, x ≠ 0 → x ≠ 0 + ((seed10.hdr 0).nunits - 2) * UNITSZ →
      splitHeap seed10.hdr 0 2 x = seed10.hdr x) := by
  have hnx : (seed10.hdr 0).nxt = 0 := by decide
  have := C4_alloc_splits_from_tail.1 seed10.hdr 2 0 0 (seed10.hdr 0).nxt 99
    (by decide)
  rwa [hnx] at this ⊢

/-- C6: whenever `alloc(n)` succeeds for `n > 0`, the size query on the
returned pointer (against the post state) yields at least `n` and strictly
less than `n + 2 * UNITSZ` bytes. -/
theorem C6_allocsz_of_alloc (a : AllocState) (n fuel r : Nat)
    (hn : 0 < n) (h : (allocator_alloc a n fuel).1 = some r) :
    n ≤ allocator_allocsz (allocator_alloc a n fuel).2.hdr r ∧
      allocator_allocsz (allocator_alloc a n fuel).2.hdr r < n + 2 * UNITSZ := by
  by_cases hg : allocInvalidSize n
  · rw [allocator_alloc_invalid a n fuel hg] at h; simp at h
  · cases hp : a.p with
    | none => rw [allocator_alloc_empty a n fuel hg hp] at h; simp at h
    | some p0 =>
      rw [allocator_alloc_eq_loop a n fuel p0 hg hp] at h ⊢
      cases hl : allocLoop a.hdr (allocNeed n) p0 p0 (a.hdr p0).nxt fuel with
      | none => rw [hl] at h; simp at h
      | some t =>
        obtain ⟨res, p', hdr'⟩ := t
        rw [hl] at h
        dsimp only at h
        rw [Option.some.injEq] at h
        subst h
        obtain ⟨hres, hnun⟩ :=
          allocLoop_some_spec a.hdr (allocNeed n) p0 fuel p0 (a.hdr p0).nxt
            res p' hdr' hl
        have hr0 : ¬ res = 0 := by unfold UNITSZ at hres; omega
        unfold allocator_allocsz
        rw [if_pos hr0, hnun]
        unfold allocNeed
        have h1 := aln_offset_unit_lt n
        have h2 := aln_offset_unit_mod n
        unfold allocInvalidSize SIZE_MAX at hg
        rw [not_or, Nat.not_lt] at hg
        generalize aln_offset n UNITSZ = i at *
        unfold UNITSZ WORD at *
        omega

/-- Witness for C6: `alloc(1)` on `seed10` returns payload `144` with
capacity 16, and `1 ≤ 16 < 1 + 2 * UNITSZ`. -/
theorem C6_allocsz_of_alloc_witness :
    1 ≤ allocator_allocsz (allocator_alloc seed10 1 100).2.hdr 144 ∧
      allocator_allocsz (allocator_alloc seed10 1 100).2.hdr 144 <
        1 + 2 * UNITSZ :=
  C6_allocsz_of_alloc seed10 1 100 144 (by decide) (by decide)

/-- Allocation never touches the payload byte store. -/
theorem allocator_alloc_bytes (a : AllocState) (n fuel : Nat) :
    (allocator_alloc a n fuel).2.bytes = a.bytes := by
  by_cases hg : allocInvalidSize n
  · rw [allocator_alloc_invalid a n fuel hg]
  · cases hp : a.p with
    | none => rw [allocator_alloc_empty a n fuel hg hp]
    | some p0 =>
      rw [allocator_alloc_eq_loop a n fuel p0 hg hp]
      cases allocLoop a.hdr (allocNeed n) p0 p0 (a.hdr p0).nxt fuel with
      | none => rfl
      | some t => obtain ⟨res, p', hdr'⟩ := t; rfl

/-- A failed allocation leaves the state unchanged: every null-returning
path of `allocator_alloc` performs no write. -/
theorem allocator_alloc_none_state (a : AllocState) (n fuel : Nat)
    (h : (allocator_alloc a n fuel).1 = none) :
    (allocator_alloc a n fuel).2 = a := by
  by_cases hg : allocInvalidSize n
  · rw [allocator_alloc_invalid a n fuel hg]
  · cases hp : a.p with
    | none => rw [allocator_alloc_empty a n fuel hg hp]
    | some p0 =>
      rw [allocator_alloc_eq_loop a n fuel p0 hg hp] at h ⊢
      cases hl : allocLoop a.hdr (allocNeed n) p0 p0 (a.hdr p0).nxt fuel with
      | none => rfl
      | some t =>
        obtain ⟨res, p', hdr'⟩ := t
        rw [hl] at h
        exact absurd h (by simp)

/-- A closing chain cannot pass through the ring anchor `p0` before its
final node: every element of a `chainFrom` result starting off `p0` is
distinct from `p0`. -/
theorem chainFrom_not_mem (hdr : Heap) (p0 : Nat) :
    ∀ (m cur : Nat) (l : List Nat),
      chainFrom hdr p0 cur m = some l → cur ≠ p0 → p0 ∉ l := by
  intro m
  induction m with
  | zero => intro cur l h; simp [chainFrom] at h
  | succ f ih =>
    intro cur l h hcur
    rw [chainFrom] at h
    by_cases hnx : (hdr cur).nxt = p0
    · rw [if_pos hnx, Option.some.injEq] at h
      subst h
      simp [Ne.symm hcur]
    · rw [if_neg hnx, Option.map_eq_some'] at h
      obtain ⟨t, ht, rfl⟩ := h
      simp only [List.mem_cons, not_or]
      exact ⟨Ne.symm hcur, ih (hdr cur).nxt t ht hnx⟩

/-- A `chainFrom` result starts at the starting node. -/
theorem chainFrom_head (hdr : Heap) (p0 : Nat) :
    ∀ (m cur c : Nat) (t : List Nat),
      chainFrom hdr p0 cur m = some (c :: t) → cur = c := by
  intro m
  cases m with
  | zero => intro cur c t h; simp [chainFrom] at h
  | succ f =>
    intro cur c t h
    rw [chainFrom] at h
    by_cases hnx : (hdr cur).nxt = p0
    · rw [if_pos hnx, Option.some.injEq, List.cons.injEq] at h
      exact h.1
    · rw [if_neg hnx, Option.map_eq_some'] at h
      obtain ⟨t', -, heq⟩ := h
      rw [List.cons.injEq] at heq
      exact heq.1

/-- When every block on the walk chain and the anchor `p0` itself are too
small, the allocation walk wraps around and reports no match. -/
theorem allocLoop_none_of_small (hdr : Heap) (need p0 : Nat) :
    ∀ (l : List Nat) (prv cur fuel : Nat),
      chainFrom hdr p0 cur l.length = some l →
      p0 ∉ l.dropLast →
      (∀ x ∈ l, (hdr x).nunits < need) →
      (hdr p0).nunits < need →
      l.length + 1 ≤ fuel →
      allocLoop hdr need p0 prv cur fuel = none := by
  intro l
  induction l with
  | nil => intro prv cur fuel hc; simp [chainFrom] at hc
  | cons c t ih =>
    intro prv cur fuel hc hdrop hsmall hp0 hfuel
    obtain rfl : cur = c := chainFrom_head hdr p0 _ cur c t hc
    simp only [List.length_cons] at hc hfuel
    rw [chainFrom] at hc
    obtain ⟨f, rfl⟩ : ∃ f, fuel = f + 1 := ⟨fuel - 1, by omega⟩
    rw [allocLoop]
    rw [if_neg (Nat.not_le.mpr (hsmall cur (List.mem_cons_self cur t)))]
    by_cases hnx : (hdr cur).nxt = p0
    · rw [if_pos hnx, Option.some.injEq, List.cons.injEq] at hc
      obtain ⟨-, rfl⟩ := hc
      by_cases hcp : cur = p0
      · rw [if_pos hcp]
      · rw [if_neg hcp]
        obtain ⟨f2, rfl⟩ : ∃ f2, f = f2 + 1 := ⟨f - 1, by omega⟩
        rw [allocLoop, hnx, if_neg (Nat.not_le.mpr hp0), if_pos rfl]
    · rw [if_neg hnx, Option.map_eq_some'] at hc
      obtain ⟨t', ht', heq⟩ := hc
      rw [List.cons.injEq] at heq
      obtain ⟨-, rfl⟩ := heq
      cases t' with
      | nil => simp [chainFrom] at ht'
      | cons d t2 =>
        have hcp : cur ≠ p0 := by
          intro hh
          exact hdrop (by rw [List.dropLast_cons₂]; exact hh ▸ List.mem_cons_self _ _)
        rw [if_neg hcp]
        refine ih cur ((hdr cur).nxt) f ht' ?_ ?_ hp0 ?_
        · intro hh
          exact hdrop (by rw [List.dropLast_cons₂]; exact List.mem_cons_of_mem _ hh)
        · intro x hx; exact hsmall x (List.mem_cons_of_mem _ hx)
        · simp only [List.length_cons] at hfuel ⊢; omega

/-- When some block on the walk chain, or the anchor `p0` itself, is large
enough, the allocation walk finds a match. -/
theorem allocLoop_isSome_of_big (hdr : Heap) (need p0 : Nat) :
    ∀ (l : List Nat) (prv cur fuel : Nat),
      chainFrom hdr p0 cur l.length = some l →
      p0 ∉ l.dropLast →
      ((∃ x ∈ l, need ≤ (hdr x).nunits) ∨ need ≤ (hdr p0).nunits) →
      l.length + 1 ≤ fuel →
      (allocLoop hdr need p0 prv cur fuel).isSome := by
  intro l
  induction l with
  | nil => intro prv cur fuel hc; simp [chainFrom] at hc
  | cons c t ih =>
    intro prv cur fuel hc hdrop hbig hfuel
    obtain rfl : cur = c := chainFrom_head hdr p0 _ cur c t hc
    simp only [List.length_cons] at hc hfuel
    rw [chainFrom] at hc
    obtain ⟨f, rfl⟩ : ∃ f, fuel = f + 1 := ⟨fuel - 1, by omega⟩
    rw [allocLoop]
    by_cases hm : need ≤ (hdr cur).nunits
    · rw [if_pos hm]
      split_ifs <;> simp
    · rw [if_neg hm]
      by_cases hnx : (hdr cur).nxt = p0
      · rw [if_pos hnx, Option.some.injEq, List.cons.injEq] at hc
        obtain ⟨-, rfl⟩ := hc
        have hbp0 : need ≤ (hdr p0).nunits := by
          rcases hbig with ⟨x, hx, hbx⟩ | h
          · rw [List.mem_singleton] at hx; subst hx; exact absurd hbx hm
          · exact h
        by_cases hcp : cur = p0
        · exact absurd (hcp ▸ hbp0) hm
        · rw [if_neg hcp]
          obtain ⟨f2, rfl⟩ : ∃ f2, f = f2 + 1 := ⟨f - 1, by omega⟩
          rw [allocLoop, hnx, if_pos hbp0]
          split_ifs <;> simp
      · rw [if_neg hnx, Option.map_eq_some'] at hc
        obtain ⟨t', ht', heq⟩ := hc
        rw [List.cons.injEq] at heq
        obtain ⟨-, rfl⟩ := heq
        cases t' with
        | nil => simp [chainFrom] at ht'
        | cons d t2 =>
          have hcp : cur ≠ p0 := by
            intro hh
            exact hdrop (by rw [List.dropLast_cons₂]; exact hh ▸ List.mem_cons_self _ _)
          rw [if_neg hcp]
          refine ih cur ((hdr cur).nxt) f ht' ?_ ?_ ?_
          · intro hh
            exact hdrop (by rw [List.dropLast_cons₂]; exact List.mem_cons_of_mem _ hh)
          · rcases hbig with ⟨x, hx, hbx⟩ | h
            · rw [List.mem_cons] at hx
              rcases hx with rfl | hx
              · exact absurd hbx hm
              · exact Or.inl ⟨x, hx, hbx⟩
            · exact Or.inr h
          · simp only [List.length_cons] at hfuel ⊢; omega

/-- A ring is either the singleton self-loop at the cursor, or the cursor
followed by a non-empty closing chain through distinct territory. -/
theorem isRing_cases (hdr : Heap) (p0 : Nat) (l : List Nat)
    (h : IsRing hdr p0 l) :
    (l = [p0] ∧ (hdr p0).nxt = p0) ∨
    (∃ rest, l = p0 :: rest ∧ rest ≠ [] ∧ (hdr p0).nxt ≠ p0 ∧
      chainFrom hdr p0 ((hdr p0).nxt) rest.length = some rest) := by
  unfold IsRing at h
  cases l with
  | nil => simp [chainFrom] at h
  | cons c rest =>
    obtain rfl : p0 = c := chainFrom_head hdr p0 _ p0 c rest h
    simp only [List.length_cons] at h
    rw [chainFrom] at h
    by_cases hnx : (hdr p0).nxt = p0
    · rw [if_pos hnx, Option.some.injEq, List.cons.injEq] at h
      obtain ⟨-, rfl⟩ := h
      exact Or.inl ⟨rfl, hnx⟩
    · rw [if_neg hnx, Option.map_eq_some'] at h
      obtain ⟨t', ht', heq⟩ := h
      rw [List.cons.injEq] at heq
      obtain ⟨-, rfl⟩ := heq
      refine Or.inr ⟨t', rfl, ?_, hnx, ht'⟩
      intro hre
      subst hre
      simp [chainFrom] at ht'

/-- C9: `alloc` returns null exactly when the request is invalid or
unsatisfiable.  Part 1: invalid size (zero or overflowing rounded size)
gives null with the state unchanged.  Part 2: an empty free list gives
null with the state unchanged.  Part 3: with a valid size and a free ring
`l`, the result is null precisely when no block of the ring is
sufficiently large.  Part 4: every null return leaves the state
unchanged. -/
theorem C9_alloc_null_iff (a : AllocState) (n fuel : Nat) :
    (allocInvalidSize n → allocator_alloc a n fuel = (none, a)) ∧
    (a.p = none → allocator_alloc a n fuel = (none, a)) ∧
    (∀ p0 l, ¬ allocInvalidSize n → a.p = some p0 → IsRing a.hdr p0 l →
      l.length + 1 ≤ fuel →
      ((allocator_alloc a n fuel).1 = none ↔
        ∀ x ∈ l, (a.hdr x).nunits < allocNeed n)) ∧
    ((allocator_alloc a n fuel).1 = none →
      (allocator_alloc a n fuel).2 = a) := by
  refine ⟨fun hg => allocator_alloc_invalid a n fuel hg, ?_, ?_,
    allocator_alloc_none_state a n fuel⟩
  · intro hp
    by_cases hg : allocInvalidSize n
    · exact allocator_alloc_invalid a n fuel hg
    · exact allocator_alloc_empty a n fuel hg hp
  · intro p0 l hg hp hring hfuel
    rw [allocator_alloc_eq_loop a n fuel p0 hg hp]
    rcases isRing_cases a.hdr p0 l hring with ⟨rfl, hnx⟩ | ⟨rest, rfl, hne, hnx, hchain⟩
    · -- singleton ring [p0]
      have hchain1 : chainFrom a.hdr p0 p0 ([p0] : List Nat).length = some [p0] :=
        hring
      rw [hnx]
      cases hres : allocLoop a.hdr (allocNeed n) p0 p0 p0 fuel with
      | none =>
        dsimp only
        refine iff_of_true rfl ?_
        intro x hx
        by_contra hb
        have hbig := allocLoop_isSome_of_big a.hdr (allocNeed n) p0 [p0] p0 p0 fuel
          hchain1 (by simp)
          (Or.inl ⟨x, hx, Nat.le_of_not_lt hb⟩) hfuel
        rw [hres] at hbig
        exact absurd hbig (by simp)
      | some t =>
        obtain ⟨res, p', hdr'⟩ := t
        dsimp only
        refine iff_of_false (by simp) ?_
        intro hsmall
        have hnone := allocLoop_none_of_small a.hdr (allocNeed n) p0 [p0] p0 p0 fuel
          hchain1 (by simp) hsmall (hsmall p0 (List.mem_cons_self p0 []))
          hfuel
        exact Option.noConfusion (hres.symm.trans hnone)
    · -- ring p0 :: rest
      have hdrop : p0 ∉ rest.dropLast := fun hh =>
        chainFrom_not_mem a.hdr p0 rest.length ((a.hdr p0).nxt) rest hchain hnx
          (List.mem_of_mem_dropLast hh)
      have hfuel' : rest.length + 1 ≤ fuel := by
        simp only [List.length_cons] at hfuel; omega
      cases hres : allocLoop a.hdr (allocNeed n) p0 p0 ((a.hdr p0).nxt) fuel with
      | none =>
        dsimp only
        refine iff_of_true rfl ?_
        intro x hx
        by_contra hb
        have hbig := allocLoop_isSome_of_big a.hdr (allocNeed n) p0 rest p0
          ((a.hdr p0).nxt) fuel hchain hdrop ?_ hfuel'
        · rw [hres] at hbig
          exact absurd hbig (by simp)
        · rw [List.mem_cons] at hx
          rcases hx with rfl | hx
          · exact Or.inr (Nat.le_of_not_lt hb)
          · exact Or.inl ⟨x, hx, Nat.le_of_not_lt hb⟩
      | some t =>
        obtain ⟨res, p', hdr'⟩ := t
        dsimp only
        refine iff_of_false (by simp) ?_
        intro hsmall
        have hnone := allocLoop_none_of_small a.hdr (allocNeed n) p0 rest p0
          ((a.hdr p0).nxt) fuel hchain hdrop
          (fun x hx => hsmall x (List.mem_cons_of_mem _ hx))
          (hsmall p0 (List.mem_cons_self _ _)) hfuel'
        exact Option.noConfusion (hres.symm.trans hnone)

/-- Witness for C9's ring clause: on `seed10` (ring `[0]`, one 10-unit
block) with a request of 1 byte, the allocation does not return null, and
correspondingly not every ring block is smaller than the needed 2 units. -/
theorem C9_alloc_null_iff_witness :
    (allocator_alloc seed10 1 100).1 = none ↔
      ∀ x ∈ [0], (seed10.hdr x).nunits < allocNeed 1 :=
  (C9_alloc_null_iff seed10 1 100).2.2.1 0 [0] (by decide) (by decide)
    (by decide) (by decide)

/-- A closing chain is never empty. -/
theorem chainFrom_ne_nil (hdr : Heap) (p0 : Nat) :
    ∀ (m cur : Nat), chainFrom hdr p0 cur m ≠ some [] := by
  intro m cur h
  cases m with
  | zero => simp [chainFrom] at h
  | succ f =>
    rw [chainFrom] at h
    by_cases hnx : (hdr cur).nxt = p0
    · rw [if_pos hnx] at h; simp at h
    · rw [if_neg hnx] at h
      obtain ⟨t, -, ht⟩ := Option.map_eq_some'.mp h
      simp at ht

/-- A closing chain needs only its own length of fuel: any fuel at least
the length gives the same result. -/
theorem chainFrom_fuel (hdr : Heap) (p0 : Nat) :
    ∀ (m cur : Nat) (l : List Nat), chainFrom hdr p0 cur m = some l →
      ∀ m', l.length ≤ m' → chainFrom hdr p0 cur m' = some l := by
  intro m
  induction m with
  | zero => intro cur l h; simp [chainFrom] at h
  | succ f ih =>
    intro cur l h m' hm'
    rw [chainFrom] at h
    by_cases hnx : (hdr cur).nxt = p0
    · rw [if_pos hnx, Option.some.injEq] at h
      subst h
      obtain ⟨k, rfl⟩ : ∃ k, m' = k + 1 := ⟨m' - 1, by simp at hm'; omega⟩
      rw [chainFrom, if_pos hnx]
    · rw [if_neg hnx, Option.map_eq_some'] at h
      obtain ⟨t, ht, rfl⟩ := h
      simp only [List.length_cons] at hm'
      obtain ⟨k, rfl⟩ : ∃ k, m' = k + 1 := ⟨m' - 1, by omega⟩
      rw [chainFrom, if_neg hnx, ih (hdr cur).nxt t ht k (by omega)]
      rfl

/-- Closing chains are deterministic: any two fuels that produce a result
produce the same chain. -/
theorem chainFrom_det (hdr : Heap) (p0 : Nat) :
    ∀ (m1 cur : Nat) (l1 l2 : List Nat) (m2 : Nat),
      chainFrom hdr p0 cur m1 = some l1 → chainFrom hdr p0 cur m2 = some l2 →
      l1 = l2 := by
  intro m1
  induction m1 with
  | zero => intro cur l1 l2 m2 h1; simp [chainFrom] at h1
  | succ f ih =>
    intro cur l1 l2 m2 h1 h2
    obtain ⟨k, rfl⟩ : ∃ k, m2 = k + 1 := by
      cases m2 with
      | zero => simp [chainFrom] at h2
      | succ k => exact ⟨k, rfl⟩
    rw [chainFrom] at h1 h2
    by_cases hnx : (hdr cur).nxt = p0
    · rw [if_pos hnx, Option.some.injEq] at h1 h2
      rw [← h1, ← h2]
    · rw [if_neg hnx, Option.map_eq_some'] at h1 h2
      obtain ⟨t1, ht1, rfl⟩ := h1
      obtain ⟨t2, ht2, rfl⟩ := h2
      rw [ih (hdr cur).nxt t1 t2 k ht1 ht2]

/-- Every element of a closing chain starts a closing suffix of it. -/
theorem chainFrom_suffix (hdr : Heap) (p0 : Nat) :
    ∀ (m cur : Nat) (l : List Nat) (x : Nat),
      chainFrom hdr p0 cur m = some l → x ∈ l →
      ∃ v, chainFrom hdr p0 x (v.length + 1) = some (x :: v) ∧ (x :: v) <:+ l := by
  intro m
  induction m with
  | zero => intro cur l x h; simp [chainFrom] at h
  | succ f ih =>
    intro cur l x h hx
    have hfix := chainFrom_fuel hdr p0 (f + 1) cur l h l.length (Nat.le_refl _)
    rw [chainFrom] at h
    by_cases hnx : (hdr cur).nxt = p0
    · rw [if_pos hnx, Option.some.injEq] at h
      subst h
      rw [List.mem_singleton] at hx
      subst hx
      exact ⟨[], by rw [chainFrom, if_pos hnx], List.suffix_refl _⟩
    · rw [if_neg hnx, Option.map_eq_some'] at h
      obtain ⟨t, ht, rfl⟩ := h
      rw [List.mem_cons] at hx
      rcases hx with rfl | hx
      · exact ⟨t, by simpa using hfix, List.suffix_refl _⟩
      · obtain ⟨v, hv, hsuf⟩ := ih (hdr cur).nxt t x ht hx
        exact ⟨v, hv, hsuf.trans (List.suffix_cons cur t)⟩

/-- A closing chain never repeats a node. -/
theorem chainFrom_nodup (hdr : Heap) (p0 : Nat) :
    ∀ (m cur : Nat) (l : List Nat),
      chainFrom hdr p0 cur m = some l → l.Nodup := by
  intro m
  induction m with
  | zero => intro cur l h; simp [chainFrom] at h
  | succ f ih =>
    intro cur l h
    have hfix := chainFrom_fuel hdr p0 (f + 1) cur l h l.length (Nat.le_refl _)
    rw [chainFrom] at h
    by_cases hnx : (hdr cur).nxt = p0
    · rw [if_pos hnx, Option.some.injEq] at h
      subst h; simp
    · rw [if_neg hnx, Option.map_eq_some'] at h
      obtain ⟨t, ht, rfl⟩ := h
      refine List.Nodup.cons ?_ (ih (hdr cur).nxt t ht)
      intro hmem
      obtain ⟨v, hv, hsuf⟩ := chainFrom_suffix hdr p0 f (hdr cur).nxt t cur ht hmem
      have hdet := chainFrom_det hdr p0 (v.length + 1) cur (cur :: v) (cur :: t)
        (cur :: t).length hv hfix
      have hlen : v.length + 1 ≤ t.length := hsuf.length_le
      rw [List.cons.injEq] at hdet
      rw [hdet.2] at hlen
      omega

/-- Consecutive chain elements are linked by `nxt`. -/
theorem chainFrom_links (hdr : Heap) (p0 : Nat) :
    ∀ (m cur : Nat) (l : List Nat), chainFrom hdr p0 cur m = some l →
      l.Chain' (fun a b => (hdr a).nxt = b) := by
  intro m
  induction m with
  | zero => intro cur l h; simp [chainFrom] at h
  | succ f ih =>
    intro cur l h
    rw [chainFrom] at h
    by_cases hnx : (hdr cur).nxt = p0
    · rw [if_pos hnx, Option.some.injEq] at h
      subst h
      exact List.chain'_singleton cur
    · rw [if_neg hnx, Option.map_eq_some'] at h
      obtain ⟨t, ht, rfl⟩ := h
      cases t with
      | nil => exact List.chain'_singleton cur
      | cons d t2 =>
        exact List.Chain'.cons (chainFrom_head hdr p0 f (hdr cur).nxt d t2 ht)
          (ih (hdr cur).nxt (d :: t2) ht)

/-- The last chain element links back to the anchor `p0`. -/
theorem chainFrom_last_nxt (hdr : Heap) (p0 : Nat) :
    ∀ (m cur : Nat) (l : List Nat), chainFrom hdr p0 cur m = some l →
      ∃ z, l.getLast? = some z ∧ (hdr z).nxt = p0 := by
  intro m
  induction m with
  | zero => intro cur l h; simp [chainFrom] at h
  | succ f ih =>
    intro cur l h
    rw [chainFrom] at h
    by_cases hnx : (hdr cur).nxt = p0
    · rw [if_pos hnx, Option.some.injEq] at h
      subst h
      exact ⟨cur, rfl, hnx⟩
    · rw [if_neg hnx, Option.map_eq_some'] at h
      obtain ⟨t, ht, rfl⟩ := h
      obtain ⟨z, hz, hzn⟩ := ih (hdr cur).nxt t ht
      cases t with
      | nil => exact absurd ht (chainFrom_ne_nil hdr p0 f (hdr cur).nxt)
      | cons d t2 => exact ⟨z, by rw [List.getLast?_cons_cons]; exact hz, hzn⟩

/-- Converse construction: a nonempty list whose consecutive elements are
linked, whose last element links to `p0`, and whose non-final elements do
not link to `p0`, is a closing chain. -/
theorem chainFrom_build (hdr : Heap) (p0 : Nat) :
    ∀ (l : List Nat) (cur : Nat), l.head? = some cur →
      l.Chain' (fun a b => (hdr a).nxt = b) →
      (∃ z, l.getLast? = some z ∧ (hdr z).nxt = p0) →
      (∀ x ∈ l.dropLast, (hdr x).nxt ≠ p0) →
      chainFrom hdr p0 cur l.length = some l := by
  intro l
  induction l with
  | nil => intro cur h; simp at h
  | cons c t ih =>
    intro cur hh hchain hlast hdrop
    obtain rfl : c = cur := by simpa using hh
    cases t with
    | nil =>
      obtain ⟨z, hz, hzn⟩ := hlast
      obtain rfl : c = z := by simpa using hz
      rw [List.length_singleton, chainFrom, if_pos hzn]
    | cons d t2 =>
      have hnx : (hdr c).nxt ≠ p0 := by
        refine hdrop c ?_
        rw [List.dropLast_cons₂]
        exact List.mem_cons_self _ _
      obtain ⟨hlink, hchain2⟩ := List.chain'_cons.mp hchain
      have hlen : (c :: d :: t2).length = (d :: t2).length + 1 := rfl
      rw [hlen, chainFrom, if_neg hnx, hlink]
      rw [ih d rfl hchain2 ?_ ?_]
      · rfl
      · obtain ⟨z, hz, hzn⟩ := hlast
        rw [List.getLast?_cons_cons] at hz
        exact ⟨z, hz, hzn⟩
      · intro x hx
        refine hdrop x ?_
        rw [List.dropLast_cons₂]
        exact List.mem_cons_of_mem _ hx

/-- Transferring a link chain between two header stores that agree on the
`nxt` fields of the listed nodes. -/
theorem chain'_nxt_congr (h1 h2 : Heap) :
    ∀ l : List Nat, (∀ x ∈ l, (h1 x).nxt = (h2 x).nxt) →
      l.Chain' (fun a b => (h1 a).nxt = b) →
      l.Chain' (fun a b => (h2 a).nxt = b) := by
  intro l
  induction l with
  | nil => intro _ _; exact List.chain'_nil
  | cons c t ih =>
    intro hagree hchain
    cases t with
    | nil => exact List.chain'_singleton c
    | cons d t2 =>
      obtain ⟨hlink, hchain2⟩ := List.chain'_cons.mp hchain
      refine List.chain'_cons.mpr ⟨?_, ?_⟩
      · rw [← hagree c (List.mem_cons_self _ _)]; exact hlink
      · exact ih (fun x hx => hagree x (List.mem_cons_of_mem _ hx)) hchain2

/-- In a link chain, the `nxt` of every non-final element lies in the
chain's tail. -/
theorem links_dropLast_nxt_mem_tail (hdr : Heap) :
    ∀ l : List Nat, l.Chain' (fun a b => (hdr a).nxt = b) →
      ∀ y ∈ l.dropLast, (hdr y).nxt ∈ l.tail := by
  intro l
  induction l with
  | nil => intro _ y hy; simp at hy
  | cons c t ih =>
    intro hchain y hy
    cases t with
    | nil => simp at hy
    | cons d t2 =>
      obtain ⟨hlink, hchain2⟩ := List.chain'_cons.mp hchain
      rw [List.dropLast_cons₂, List.mem_cons] at hy
      rcases hy with rfl | hy
      · rw [hlink]; exact List.mem_cons_self _ _
      · exact List.mem_cons_of_mem _ (ih hchain2 y hy)

/-- A ring is closed under following `nxt`. -/
theorem isRing_nxt_mem (hdr : Heap) (p0 : Nat) (l : List Nat)
    (h : IsRing hdr p0 l) (x : Nat) (hx : x ∈ l) : (hdr x).nxt ∈ l := by
  unfold IsRing at h
  obtain ⟨v, hv, hsuf⟩ := chainFrom_suffix hdr p0 l.length p0 l x h hx
  rw [chainFrom] at hv
  by_cases hnx : (hdr x).nxt = p0
  · rw [hnx]
    cases l with
    | nil => simp at hx
    | cons c t =>
      obtain rfl : p0 = c := chainFrom_head hdr p0 _ p0 c t h
      exact List.mem_cons_self _ _
  · rw [if_neg hnx, Option.map_eq_some'] at hv
    obtain ⟨t', ht', heq⟩ := hv
    rw [List.cons.injEq] at heq
    obtain ⟨-, rfl⟩ := heq
    cases t' with
    | nil => exact absurd ht' (chainFrom_ne_nil hdr p0 _ _)
    | cons d t2 =>
      obtain rfl : (hdr x).nxt = d := chainFrom_head hdr p0 _ _ d t2 ht'
      exact hsuf.sublist.mem (List.mem_cons_of_mem _ (List.mem_cons_self _ _))

/-- Assembling a ring anchored at the head of its node list. -/
theorem build_ring_cons (hdr : Heap) (cur : Nat) (rest : List Nat)
    (hnd : (cur :: rest).Nodup)
    (hchain : (cur :: rest).Chain' (fun a b => (hdr a).nxt = b))
    (hlast : ∃ z, (cur :: rest).getLast? = some z ∧ (hdr z).nxt = cur) :
    IsRing hdr cur (cur :: rest) := by
  unfold IsRing
  refine chainFrom_build hdr cur (cur :: rest) cur rfl hchain hlast ?_
  intro x hx hxn
  have hmem : (hdr x).nxt ∈ rest :=
    links_dropLast_nxt_mem_tail hdr (cur :: rest) hchain x hx
  rw [hxn] at hmem
  exact (List.nodup_cons.mp hnd).1 hmem

/-- Relisting a ring from any of its nodes. -/
theorem isRing_rotate (hdr : Heap) (p0 : Nat) (u v : List Nat) (x : Nat)
    (h : IsRing hdr p0 (u ++ x :: v)) : IsRing hdr x (x :: (v ++ u)) := by
  have hlen : (u ++ x :: v) ≠ [] := by simp
  cases u with
  | nil =>
    obtain rfl : p0 = x := chainFrom_head hdr p0 _ p0 x v h
    simpa using h
  | cons a u2 =>
    obtain rfl : p0 = a := chainFrom_head hdr p0 _ p0 a (u2 ++ x :: v) h
    have hchain := chainFrom_links hdr p0 _ p0 _ h
    have hlast := chainFrom_last_nxt hdr p0 _ p0 _ h
    have hnd := chainFrom_nodup hdr p0 _ p0 _ h
    obtain ⟨Ca, Cb, hbd⟩ := List.chain'_append.mp hchain
    refine build_ring_cons hdr x (v ++ p0 :: u2) ?_ ?_ ?_
    · have h1 : ((p0 :: u2) ++ x :: v).Perm (x :: ((p0 :: u2) ++ v)) :=
        @List.perm_middle Nat x (p0 :: u2) v
      have h2 : ((p0 :: u2) ++ v).Perm (v ++ (p0 :: u2)) := List.perm_append_comm
      exact (h1.trans (List.Perm.cons x h2)).nodup hnd
    · have : (x :: v ++ p0 :: u2).Chain' (fun a b => (hdr a).nxt = b) := by
        refine List.chain'_append.mpr ⟨Cb, Ca, ?_⟩
        obtain ⟨z, hz, hzn⟩ := hlast
        rw [List.getLast?_append_of_ne_nil (p0 :: u2) (by simp)] at hz
        intro z' hz' y hy
        rw [hz, Option.mem_def, Option.some.injEq] at hz'
        rw [List.head?_cons, Option.mem_def, Option.some.injEq] at hy
        subst hz'
        subst hy
        exact hzn
      simpa using this
    · have hglast : (x :: (v ++ p0 :: u2)).getLast? = (p0 :: u2).getLast? := by
        rw [show x :: (v ++ p0 :: u2) = (x :: v) ++ (p0 :: u2) by simp,
          List.getLast?_append_of_ne_nil (x :: v) (by simp)]
      obtain ⟨z, hz2⟩ : ∃ z, (p0 :: u2).getLast? = some z := by
        cases hq : (p0 :: u2).getLast? with
        | none => simp at hq
        | some z => exact ⟨z, rfl⟩
      refine ⟨z, by rw [hglast, hz2], ?_⟩
      have := hbd z (by rw [hz2]; rfl) x (by rfl)
      exact this

/-- The free-walk, when it stops, stops at a ring node. -/
theorem freeFindLoop_mem (hdr : Heap) (p p0 : Nat) (l : List Nat)
    (h : IsRing hdr p0 l) :
    ∀ (fuel cur0 s : Nat), cur0 ∈ l → freeFindLoop hdr p cur0 fuel = some s →
      s ∈ l := by
  intro fuel
  induction fuel with
  | zero => intro cur0 s _ hs; simp [freeFindLoop] at hs
  | succ f ih =>
    intro cur0 s hcur hs
    rw [freeFindLoop] at hs
    split_ifs at hs
    · rw [Option.some.injEq] at hs; rw [← hs]; exact hcur
    · rw [Option.some.injEq] at hs; rw [← hs]; exact hcur
    · exact ih (hdr cur0).nxt s (isRing_nxt_mem hdr p0 l h cur0 hcur) hs

/-- An element named by `getLast?` is a member. -/
theorem getLast?_mem_of_eq :
    ∀ (l : List Nat) (z : Nat), l.getLast? = some z → z ∈ l := by
  intro l z h
  obtain ⟨hne, heq⟩ := List.mem_getLast?_eq_getLast (Option.mem_def.mpr h)
  rw [heq]
  exact List.getLast_mem hne

/-- One member's image is at most the mapped sum. -/
theorem single_le_sum_map (f : Nat → Nat) :
    ∀ (l : List Nat) (x : Nat), x ∈ l → f x ≤ (l.map f).sum := by
  intro l
  induction l with
  | nil => intro x hx; simp at hx
  | cons c t ih =>
    intro x hx
    rw [List.map_cons, List.sum_cons]
    rcases List.mem_cons.mp hx with rfl | hx
    · exact Nat.le_add_right _ _
    · exact Nat.le_trans (ih x hx) (Nat.le_add_left _ _)

/-- Two distinct members' images together are at most the mapped sum. -/
theorem pair_le_sum_map (f : Nat → Nat) (l : List Nat) (x y : Nat)
    (hx : x ∈ l) (hy : y ∈ l) (hxy : x ≠ y) :
    f x + f y ≤ (l.map f).sum := by
  obtain ⟨s, t, rfl⟩ := List.append_of_mem hx
  rw [List.map_append, List.sum_append, List.map_cons, List.sum_cons]
  rcases List.mem_append.mp hy with hys | hyt
  · have := single_le_sum_map f s y hys
    omega
  · rcases List.mem_cons.mp hyt with rfl | hyt2
    · exact absurd rfl hxy
    · have := single_le_sum_map f t y hyt2
      omega

/-- Frame rule for `freeInsert`: only the headers at `p` and `cur` are
written. -/
theorem freeInsert_frame (hdr : Heap) (p cur x : Nat)
    (hxp : x ≠ p) (hxc : x ≠ cur) : freeInsert hdr p cur x = hdr x := by
  simp only [freeInsert]
  by_cases hF : p + (hdr p).nunits * UNITSZ = (hdr cur).nxt
  · rw [if_pos hF]
    split
    · rw [setNxt_ne _ _ _ _ hxc, setNunits_ne _ _ _ _ hxc,
        setNxt_ne _ _ _ _ hxp, setNunits_ne _ _ _ _ hxp]
    · rw [setNxt_ne _ _ _ _ hxc, setNxt_ne _ _ _ _ hxp, setNunits_ne _ _ _ _ hxp]
  · rw [if_neg hF]
    split
    · rw [setNxt_ne _ _ _ _ hxc, setNunits_ne _ _ _ _ hxc, setNxt_ne _ _ _ _ hxp]
    · rw [setNxt_ne _ _ _ _ hxc, setNxt_ne _ _ _ _ hxp]

/-- Value of the freed block's header after `freeInsert`, when it
coalesces with the following block (`cur->nxt`). -/
theorem freeInsert_p_of_F (hdr : Heap) (p cur : Nat) (hpc : p ≠ cur)
    (hF : p + (hdr p).nunits * UNITSZ = (hdr cur).nxt) :
    (freeInsert hdr p cur p).nunits =
        ((hdr p).nunits + (hdr ((hdr cur).nxt)).nunits) % WORD ∧
      (freeInsert hdr p cur p).nxt = (hdr ((hdr cur).nxt)).nxt := by
  simp only [freeInsert]
  rw [if_pos hF]
  split
  · constructor
    · rw [setNxt_nunits, setNunits_ne _ _ _ _ hpc, setNxt_nunits, setNunits_self]
    · rw [setNxt_ne _ _ _ _ hpc, setNunits_ne _ _ _ _ hpc, setNxt_self]
  · constructor
    · rw [setNxt_nunits, setNxt_nunits, setNunits_self]
    · rw [setNxt_ne _ _ _ _ hpc, setNxt_self]

/-- Value of the freed block's header after `freeInsert`, when it does not
coalesce forward: it is linked in after `cur` unchanged in size. -/
theorem freeInsert_p_of_notF (hdr : Heap) (p cur : Nat) (hpc : p ≠ cur)
    (hF : ¬ p + (hdr p).nunits * UNITSZ = (hdr cur).nxt) :
    (freeInsert hdr p cur p).nunits = (hdr p).nunits ∧
      (freeInsert hdr p cur p).nxt = (hdr cur).nxt := by
  simp only [freeInsert]
  rw [if_neg hF]
  split
  · constructor
    · rw [setNxt_nunits, setNunits_ne _ _ _ _ hpc, setNxt_nunits]
    · rw [setNxt_ne _ _ _ _ hpc, setNunits_ne _ _ _ _ hpc, setNxt_self]
  · constructor
    · rw [setNxt_nunits, setNxt_nunits]
    · rw [setNxt_ne _ _ _ _ hpc, setNxt_self]

/-- Value of the insertion node's header after `freeInsert`, when it
coalesces backward (absorbing the freed block). -/
theorem freeInsert_cur_of_B (hdr : Heap) (p cur : Nat) (hpc : p ≠ cur)
    (hB : cur + (hdr cur).nunits * UNITSZ = p) :
    (freeInsert hdr p cur cur).nunits =
        ((hdr cur).nunits + (freeInsert hdr p cur p).nunits) % WORD ∧
      (freeInsert hdr p cur cur).nxt = (freeInsert hdr p cur p).nxt := by
  have hcp : cur ≠ p := Ne.symm hpc
  simp only [freeInsert]
  by_cases hF : p + (hdr p).nunits * UNITSZ = (hdr cur).nxt
  · rw [if_pos hF]
    have h1 : (setNxt
        (setNunits hdr p (((hdr p).nunits + (hdr ((hdr cur).nxt)).nunits) % WORD)) p
        (hdr ((hdr cur).nxt)).nxt) cur = hdr cur := by
      rw [setNxt_ne _ _ _ _ hcp, setNunits_ne _ _ _ _ hcp]
    rw [h1, if_pos hB]
    constructor
    · simp [setNxt, setNunits, hcp, hpc]
    · simp [setNxt, setNunits, hcp, hpc]
  · rw [if_neg hF]
    have h1 : (setNxt hdr p (hdr cur).nxt) cur = hdr cur := by
      rw [setNxt_ne _ _ _ _ hcp]
    rw [h1, if_pos hB]
    constructor
    · simp [setNxt, setNunits, hcp, hpc]
    · simp [setNxt, setNunits, hcp, hpc]

/-- Value of the insertion node's header after `freeInsert`, when it does
not coalesce backward: its `nxt` is pointed at the freed block. -/
theorem freeInsert_cur_of_notB (hdr : Heap) (p cur : Nat) (hpc : p ≠ cur)
    (hB : ¬ cur + (hdr cur).nunits * UNITSZ = p) :
    (freeInsert hdr p cur cur).nunits = (hdr cur).nunits ∧
      (freeInsert hdr p cur cur).nxt = p := by
  have hcp : cur ≠ p := Ne.symm hpc
  simp only [freeInsert]
  by_cases hF : p + (hdr p).nunits * UNITSZ = (hdr cur).nxt
  · rw [if_pos hF]
    have h1 : (setNxt
        (setNunits hdr p (((hdr p).nunits + (hdr ((hdr cur).nxt)).nunits) % WORD)) p
        (hdr ((hdr cur).nxt)).nxt) cur = hdr cur := by
      rw [setNxt_ne _ _ _ _ hcp, setNunits_ne _ _ _ _ hcp]
    rw [h1, if_neg hB]
    constructor
    · rw [setNxt_nunits, setNxt_ne _ _ _ _ hcp, setNunits_ne _ _ _ _ hcp]
    · rw [setNxt_self]
  · rw [if_neg hF]
    have h1 : (setNxt hdr p (hdr cur).nxt) cur = hdr cur := by
      rw [setNxt_ne _ _ _ _ hcp]
    rw [h1, if_neg hB]
    constructor
    · rw [setNxt_nunits, setNxt_ne _ _ _ _ hcp]
    · rw [setNxt_self]

/-- Releasing a block `p` into a ring (anchored at the insertion node
`cur`) preserves the block discipline: the updated store carries a ring
anchored at `cur` whose nodes are the old nodes plus possibly `p`, all
still good.  `p` must be a fresh node (not on the ring), and the combined
unit count must not overflow `size_t`. -/
theorem freeInsert_BlocksOK (hdr : Heap) (p cur : Nat) (w : List Nat)
    (hring : IsRing hdr cur (cur :: w))
    (hgood : ∀ x ∈ cur :: w, GoodBlock hdr x)
    (hgp : GoodBlock hdr p)
    (hnm : p ∉ cur :: w)
    (hsum : (hdr p).nunits + (((cur :: w).map fun x => (hdr x).nunits).sum) < WORD) :
    ∃ newl, IsRing (freeInsert hdr p cur) cur newl ∧
      (∀ x ∈ newl, GoodBlock (freeInsert hdr p cur) x) ∧
      (∀ x ∈ newl, x = p ∨ x ∈ cur :: w) := by
  have hchain := chainFrom_links hdr cur (cur :: w).length cur (cur :: w) hring
  have hlastE := chainFrom_last_nxt hdr cur (cur :: w).length cur (cur :: w) hring
  have hnd := chainFrom_nodup hdr cur (cur :: w).length cur (cur :: w) hring
  have hpc : p ≠ cur := fun h => hnm (by rw [h]; exact List.mem_cons_self _ _)
  have hcw : cur ∉ w := (List.nodup_cons.mp hnd).1
  have hndw : w.Nodup := (List.nodup_cons.mp hnd).2
  have hpw : p ∉ w := fun h => hnm (List.mem_cons_of_mem _ h)
  have hgc : GoodBlock hdr cur := hgood cur (List.mem_cons_self _ _)
  have hframe : ∀ x, x ≠ p → x ≠ cur → freeInsert hdr p cur x = hdr x :=
    freeInsert_frame hdr p cur
  have hgw : ∀ x ∈ w, GoodBlock (freeInsert hdr p cur) x := by
    intro x hx
    have hgb := hgood x (List.mem_cons_of_mem _ hx)
    unfold GoodBlock at hgb ⊢
    rw [hframe x (fun h => hpw (h ▸ hx)) (fun h => hcw (h ▸ hx))]
    exact hgb
  have hwchain : ∀ t : List Nat, (∀ x ∈ t, x ∈ w) →
      t.Chain' (fun a b => (hdr a).nxt = b) →
      t.Chain' (fun a b => ((freeInsert hdr p cur) a).nxt = b) := by
    intro t hsub hch
    refine chain'_nxt_congr hdr (freeInsert hdr p cur) t ?_ hch
    intro x hx
    rw [hframe x (fun h => hpw (h ▸ hsub x hx)) (fun h => hcw (h ▸ hsub x hx))]
  cases w with
  | nil =>
    have hnx : (hdr cur).nxt = cur := by
      have h := hring
      unfold IsRing at h
      rw [List.length_singleton, chainFrom] at h
      by_cases hx : (hdr cur).nxt = cur
      · exact hx
      · rw [if_neg hx] at h
        simp [chainFrom] at h
    have hs1 : (hdr p).nunits + (hdr cur).nunits < WORD := by
      simp only [List.map_cons, List.map_nil, List.sum_cons, List.sum_nil] at hsum
      omega
    by_cases hF : p + (hdr p).nunits * UNITSZ = (hdr cur).nxt
    · -- forward coalesce with the singleton itself
      have hB : ¬ cur + (hdr cur).nunits * UNITSZ = p := by
        rw [hnx] at hF
        have e1 : 0 < (hdr p).nunits * UNITSZ :=
          Nat.mul_pos hgp.1 (by norm_num [UNITSZ])
        have e2 : 0 < (hdr cur).nunits * UNITSZ :=
          Nat.mul_pos hgc.1 (by norm_num [UNITSZ])
        omega
      obtain ⟨hpn, hpx⟩ := freeInsert_p_of_F hdr p cur hpc hF
      obtain ⟨hcn, hcx⟩ := freeInsert_cur_of_notB hdr p cur hpc hB
      rw [hnx, hnx] at hpx
      rw [hnx] at hpn
      refine ⟨[cur, p], ?_, ?_, ?_⟩
      · refine build_ring_cons _ cur [p] (by simp [Ne.symm hpc]) ?_ ⟨p, rfl, hpx⟩
        exact List.chain'_cons.mpr ⟨hcx, List.chain'_singleton p⟩
      · intro x hx
        rcases List.mem_cons.mp hx with rfl | hx2
        · exact ⟨by rw [hcn]; exact hgc.1, hgc.2⟩
        · rw [List.mem_singleton] at hx2
          subst hx2
          refine ⟨?_, hgp.2⟩
          rw [hpn, Nat.mod_eq_of_lt hs1]
          have := hgp.1
          omega
      · intro x hx
        rcases List.mem_cons.mp hx with rfl | hx2
        · exact Or.inr (List.mem_cons_self _ _)
        · rw [List.mem_singleton] at hx2
          exact Or.inl hx2
    · obtain ⟨hpn, hpx⟩ := freeInsert_p_of_notF hdr p cur hpc hF
      rw [hnx] at hpx
      by_cases hB : cur + (hdr cur).nunits * UNITSZ = p
      · -- backward coalesce: the ring stays the singleton `[cur]`
        obtain ⟨hcn, hcx⟩ := freeInsert_cur_of_B hdr p cur hpc hB
        refine ⟨[cur], ?_, ?_, ?_⟩
        · exact build_ring_cons _ cur [] (by simp) (List.chain'_singleton cur)
            ⟨cur, rfl, by rw [hcx, hpx]⟩
        · intro x hx
          rw [List.mem_singleton] at hx
          subst hx
          refine ⟨?_, hgc.2⟩
          rw [hcn, hpn, Nat.mod_eq_of_lt (by omega)]
          have := hgc.1
          omega
        · intro x hx
          rw [List.mem_singleton] at hx
          exact Or.inr (hx ▸ List.mem_cons_self _ _)
      · -- plain insertion after the singleton
        obtain ⟨hcn, hcx⟩ := freeInsert_cur_of_notB hdr p cur hpc hB
        refine ⟨[cur, p], ?_, ?_, ?_⟩
        · refine build_ring_cons _ cur [p] (by simp [Ne.symm hpc]) ?_ ⟨p, rfl, hpx⟩
          exact List.chain'_cons.mpr ⟨hcx, List.chain'_singleton p⟩
        · intro x hx
          rcases List.mem_cons.mp hx with rfl | hx2
          · exact ⟨by rw [hcn]; exact hgc.1, hgc.2⟩
          · rw [List.mem_singleton] at hx2
            subst hx2
            exact ⟨by rw [hpn]; exact hgp.1, hgp.2⟩
        · intro x hx
          rcases List.mem_cons.mp hx with rfl | hx2
          · exact Or.inr (List.mem_cons_self _ _)
          · rw [List.mem_singleton] at hx2
            exact Or.inl hx2
  | cons d w2 =>
    have hnxd : (hdr cur).nxt = d := (List.chain'_cons.mp hchain).1
    have hchain2 : (d :: w2).Chain' (fun a b => (hdr a).nxt = b) :=
      (List.chain'_cons.mp hchain).2
    have hdm : d ∈ d :: w2 := List.mem_cons_self _ _
    have hdc : d ≠ cur := fun h => hcw (h ▸ hdm)
    have hdp : d ≠ p := fun h => hpw (h ▸ hdm)
    obtain ⟨z, hz, hzc⟩ := hlastE
    have hzw : (d :: w2).getLast? = some z := by
      rw [List.getLast?_cons_cons] at hz
      exact hz
    have hzm : z ∈ d :: w2 := getLast?_mem_of_eq _ _ hzw
    have hznp : z ≠ p := fun h => hpw (h ▸ hzm)
    have hznc : z ≠ cur := fun h => hcw (h ▸ hzm)
    have hzn' : ((freeInsert hdr p cur) z).nxt = cur := by
      rw [hframe z hznp hznc]
      exact hzc
    have hndcw2 : (cur :: w2).Nodup := by
      rw [List.nodup_cons] at hnd ⊢
      exact ⟨fun h => hnd.1 (List.mem_cons_of_mem _ h), (List.nodup_cons.mp hnd.2).2⟩
    have hnd2 : (cur :: p :: d :: w2).Nodup := by
      rw [List.nodup_cons, List.nodup_cons]
      exact ⟨by simp [Ne.symm hpc, hcw], by simp [hpw], hndw⟩
    have hbd : (hdr d).nunits ≤ (((cur :: d :: w2).map fun x => (hdr x).nunits).sum) :=
      single_le_sum_map (fun x => (hdr x).nunits) (cur :: d :: w2) d
        (List.mem_cons_of_mem _ hdm)
    have hbcur : (hdr cur).nunits + (hdr d).nunits ≤
        (((cur :: d :: w2).map fun x => (hdr x).nunits).sum) :=
      pair_le_sum_map (fun x => (hdr x).nunits) (cur :: d :: w2) cur d
        (List.mem_cons_self _ _) (List.mem_cons_of_mem _ hdm) (Ne.symm hdc)
    have hbcur1 : (hdr cur).nunits ≤
        (((cur :: d :: w2).map fun x => (hdr x).nunits).sum) :=
      single_le_sum_map (fun x => (hdr x).nunits) (cur :: d :: w2) cur
        (List.mem_cons_self _ _)
    by_cases hF : p + (hdr p).nunits * UNITSZ = (hdr cur).nxt
    · obtain ⟨hpn, hpx⟩ := freeInsert_p_of_F hdr p cur hpc hF
      rw [hnxd] at hpn hpx
      have hpnv : (freeInsert hdr p cur p).nunits = (hdr p).nunits + (hdr d).nunits := by
        rw [hpn, Nat.mod_eq_of_lt (by omega)]
      by_cases hB : cur + (hdr cur).nunits * UNITSZ = p
      · -- absorb both sides: ring becomes `cur :: w2`
        obtain ⟨hcn, hcx⟩ := freeInsert_cur_of_B hdr p cur hpc hB
        have hcnv : (freeInsert hdr p cur cur).nunits =
            (hdr cur).nunits + ((hdr p).nunits + (hdr d).nunits) := by
          rw [hcn, hpnv, Nat.mod_eq_of_lt (by omega)]
        refine ⟨cur :: w2, ?_, ?_, ?_⟩
        · refine build_ring_cons _ cur w2 hndcw2 ?_ ?_
          · cases w2 with
            | nil => exact List.chain'_singleton cur
            | cons e2 w3 =>
              refine List.chain'_cons.mpr ⟨?_, ?_⟩
              · rw [hcx, hpx]
                exact (List.chain'_cons.mp hchain2).1
              · exact hwchain (e2 :: w3) (fun x hx => List.mem_cons_of_mem _ hx)
                  (List.chain'_cons.mp hchain2).2
          · cases w2 with
            | nil =>
              refine ⟨cur, rfl, ?_⟩
              obtain rfl : d = z := by simpa using hzw
              rw [hcx, hpx]
              exact hzc
            | cons e2 w3 =>
              refine ⟨z, ?_, hzn'⟩
              rw [List.getLast?_cons_cons]
              rw [List.getLast?_cons_cons] at hzw
              exact hzw
        · intro x hx
          rcases List.mem_cons.mp hx with rfl | hx2
          · exact ⟨by rw [hcnv]; have := hgc.1; omega, hgc.2⟩
          · exact hgw x (List.mem_cons_of_mem _ hx2)
        · intro x hx
          rcases List.mem_cons.mp hx with rfl | hx2
          · exact Or.inr (List.mem_cons_self _ _)
          · exact Or.inr (List.mem_cons_of_mem _ (List.mem_cons_of_mem _ hx2))
      · -- absorb the next block only: ring becomes `cur :: p :: w2`
        obtain ⟨hcn, hcx⟩ := freeInsert_cur_of_notB hdr p cur hpc hB
        refine ⟨cur :: p :: w2, ?_, ?_, ?_⟩
        · refine build_ring_cons _ cur (p :: w2) ?_ ?_ ?_
          · rw [List.nodup_cons, List.nodup_cons]
            refine ⟨?_, ?_, (List.nodup_cons.mp hndw).2⟩
            · simp only [List.mem_cons, not_or]
              exact ⟨Ne.symm hpc, fun h => hcw (List.mem_cons_of_mem _ h)⟩
            · exact fun h => hpw (List.mem_cons_of_mem _ h)
          · refine List.chain'_cons.mpr ⟨hcx, ?_⟩
            cases w2 with
            | nil => exact List.chain'_singleton p
            | cons e2 w3 =>
              refine List.chain'_cons.mpr ⟨?_, ?_⟩
              · rw [hpx]
                exact (List.chain'_cons.mp hchain2).1
              · exact hwchain (e2 :: w3) (fun x hx => List.mem_cons_of_mem _ hx)
                  (List.chain'_cons.mp hchain2).2
          · cases w2 with
            | nil =>
              refine ⟨p, rfl, ?_⟩
              obtain rfl : d = z := by simpa using hzw
              rw [hpx]
              exact hzc
            | cons e2 w3 =>
              refine ⟨z, ?_, hzn'⟩
              rw [List.getLast?_cons_cons, List.getLast?_cons_cons]
              rw [List.getLast?_cons_cons] at hzw
              exact hzw
        · intro x hx
          rcases List.mem_cons.mp hx with rfl | hx2
          · exact ⟨by rw [hcn]; exact hgc.1, hgc.2⟩
          · rcases List.mem_cons.mp hx2 with rfl | hx3
            · exact ⟨by rw [hpnv]; have := hgp.1; omega, hgp.2⟩
            · exact hgw x (List.mem_cons_of_mem _ hx3)
        · intro x hx
          rcases List.mem_cons.mp hx with rfl | hx2
          · exact Or.inr (List.mem_cons_self _ _)
          · rcases List.mem_cons.mp hx2 with rfl | hx3
            · exact Or.inl rfl
            · exact Or.inr (List.mem_cons_of_mem _ (List.mem_cons_of_mem _ hx3))
    · obtain ⟨hpn, hpx⟩ := freeInsert_p_of_notF hdr p cur hpc hF
      rw [hnxd] at hpx
      by_cases hB : cur + (hdr cur).nunits * UNITSZ = p
      · -- absorbed backward only: ring keeps its node list `cur :: d :: w2`
        obtain ⟨hcn, hcx⟩ := freeInsert_cur_of_B hdr p cur hpc hB
        have hcnv : (freeInsert hdr p cur cur).nunits =
            (hdr cur).nunits + (hdr p).nunits := by
          rw [hcn, hpn, Nat.mod_eq_of_lt (by omega)]
        refine ⟨cur :: d :: w2, ?_, ?_, ?_⟩
        · refine build_ring_cons _ cur (d :: w2) hnd ?_ ?_
          · refine List.chain'_cons.mpr ⟨?_, ?_⟩
            · rw [hcx, hpx]
            · exact hwchain (d :: w2) (fun x hx => hx) hchain2
          · refine ⟨z, ?_, hzn'⟩
            rw [List.getLast?_cons_cons]
            exact hzw
        · intro x hx
          rcases List.mem_cons.mp hx with rfl | hx2
          · exact ⟨by rw [hcnv]; have := hgc.1; omega, hgc.2⟩
          · exact hgw x hx2
        · intro x hx
          rcases List.mem_cons.mp hx with rfl | hx2
          · exact Or.inr (List.mem_cons_self _ _)
          · exact Or.inr (List.mem_cons_of_mem _ hx2)
      · -- plain insertion: ring becomes `cur :: p :: d :: w2`
        obtain ⟨hcn, hcx⟩ := freeInsert_cur_of_notB hdr p cur hpc hB
        refine ⟨cur :: p :: d :: w2, ?_, ?_, ?_⟩
        · refine build_ring_cons _ cur (p :: d :: w2) hnd2 ?_ ?_
          · refine List.chain'_cons.mpr ⟨hcx, ?_⟩
            refine List.chain'_cons.mpr ⟨hpx, ?_⟩
            exact hwchain (d :: w2) (fun x hx => hx) hchain2
          · refine ⟨z, ?_, hzn'⟩
            rw [List.getLast?_cons_cons, List.getLast?_cons_cons]
            exact hzw
        · intro x hx
          rcases List.mem_cons.mp hx with rfl | hx2
          · exact ⟨by rw [hcn]; exact hgc.1, hgc.2⟩
          · rcases List.mem_cons.mp hx2 with rfl | hx3
            · exact ⟨by rw [hpn]; exact hgp.1, hgp.2⟩
            · exact hgw x hx3
        · intro x hx
          rcases List.mem_cons.mp hx with rfl | hx2
          · exact Or.inr (List.mem_cons_self _ _)
          · rcases List.mem_cons.mp hx2 with rfl | hx3
            · exact Or.inl rfl
            · exact Or.inr (List.mem_cons_of_mem _ hx3)

/-- Operation-level preservation for `allocator_free`: freeing the null
pointer, or a good fresh block (not on the free ring, ending one unit
above an `8`-aligned header, with no `size_t` overflow of the combined
unit counts), keeps the block discipline. -/
theorem allocator_free_BlocksOK (a : AllocState) (ptr fuel : Nat)
    (hOK : BlocksOK a)
    (hgp : ptr = 0 ∨ (UNITSZ ≤ ptr ∧ GoodBlock a.hdr (ptr - UNITSZ)))
    (hfresh : ∀ p0 l, a.p = some p0 → IsRing a.hdr p0 l →
      ptr - UNITSZ ∉ l ∧
      (a.hdr (ptr - UNITSZ)).nunits + ((l.map fun x => (a.hdr x).nunits).sum) < WORD) :
    BlocksOK (allocator_free a ptr fuel) := by
  unfold allocator_free
  by_cases h0 : ptr = 0
  · rw [if_pos h0]; exact hOK
  · rw [if_neg h0]
    rcases hgp with h | ⟨-, hgb⟩
    · exact absurd h h0
    cases hap : a.p with
    | none =>
      show BlocksOK { p := some (ptr - UNITSZ), hdr := setNxt a.hdr (ptr - UNITSZ) (ptr - UNITSZ), bytes := a.bytes }
      intro p0' hp0'
      rw [Option.some.injEq] at hp0'
      subst hp0'
      refine ⟨[ptr - UNITSZ], ?_, ?_⟩
      · unfold IsRing
        rw [List.length_singleton, chainFrom, if_pos (by simp [setNxt])]
      · intro x hx
        rw [List.mem_singleton] at hx
        subst hx
        refine ⟨?_, hgb.2⟩
        have h1 := hgb.1
        simpa [setNxt] using h1
    | some start =>
      show BlocksOK
        (match freeFindLoop a.hdr (ptr - UNITSZ) start fuel with
          | none => a
          | some cur =>
            { a with p := some cur, hdr := freeInsert a.hdr (ptr - UNITSZ) cur })
      obtain ⟨l, hring, hgood⟩ := hOK start hap
      obtain ⟨hnm, hsum⟩ := hfresh start l hap hring
      cases hfl : freeFindLoop a.hdr (ptr - UNITSZ) start fuel with
      | none => exact hOK
      | some cur =>
        have hstart : start ∈ l := by
          cases l with
          | nil => exact absurd hring (chainFrom_ne_nil a.hdr start 0 start)
          | cons c t =>
            obtain rfl : start = c := chainFrom_head a.hdr start _ start c t hring
            exact List.mem_cons_self _ _
        have hcur : cur ∈ l :=
          freeFindLoop_mem a.hdr (ptr - UNITSZ) start l hring fuel start cur
            hstart hfl
        obtain ⟨u, v, rfl⟩ := List.append_of_mem hcur
        have hrot : IsRing a.hdr cur (cur :: (v ++ u)) :=
          isRing_rotate a.hdr start u v cur hring
        have hperm : (u ++ cur :: v).Perm (cur :: (v ++ u)) := by
          have h1 : (u ++ cur :: v).Perm (cur :: (u ++ v)) :=
            @List.perm_middle Nat cur u v
          have h2 : (u ++ v).Perm (v ++ u) := List.perm_append_comm
          exact h1.trans (List.Perm.cons cur h2)
        intro p0' hp0'
        rw [Option.some.injEq] at hp0'
        subst hp0'
        obtain ⟨newl, hnr, hng, -⟩ :=
          freeInsert_BlocksOK a.hdr (ptr - UNITSZ) cur (v ++ u) hrot
            (fun x hx => hgood x (hperm.mem_iff.mpr hx)) hgb
            (fun hx => hnm (hperm.mem_iff.mpr hx))
            (by rw [← (hperm.map fun x => (a.hdr x).nunits).sum_eq]; exact hsum)
        exact ⟨newl, hnr, hng⟩

/-- Closing chains only read the `nxt` fields: two stores agreeing on all
`nxt` fields produce identical chains. -/
theorem chainFrom_congr_nxt (h1 h2 : Heap)
    (hagree : ∀ x, (h1 x).nxt = (h2 x).nxt) (p0 : Nat) :
    ∀ (m cur : Nat), chainFrom h1 p0 cur m = chainFrom h2 p0 cur m := by
  intro m
  induction m with
  | zero => intro cur; rfl
  | succ f ih =>
    intro cur
    rw [chainFrom, chainFrom, hagree cur, ih ((h2 cur).nxt)]

/-- The allocation walk preserves the block discipline: whatever new
cursor it sets points at a ring of good blocks.  The walk starts at any
ring node `prv` together with its successor `cur`. -/
theorem allocLoop_BlocksOK (hdr : Heap) (need p0 : Nat) (l : List Nat)
    (hring : IsRing hdr p0 l) (hgood : ∀ x ∈ l, GoodBlock hdr x)
    (hneed : 1 ≤ need) :
    ∀ (fuel prv cur res : Nat) (p' : Option Nat) (hdr' : Heap),
      prv ∈ l → (hdr prv).nxt = cur →
      allocLoop hdr need p0 prv cur fuel = some (res, p', hdr') →
      ∀ q, p' = some q →
        ∃ l', IsRing hdr' q l' ∧ ∀ x ∈ l', GoodBlock hdr' x := by
  intro fuel
  induction fuel with
  | zero => intro prv cur res p' hdr' _ _ h; simp [allocLoop] at h
  | succ f ih =>
    intro prv cur res p' hdr' hprv hnxt h
    have hcur : cur ∈ l := hnxt ▸ isRing_nxt_mem hdr p0 l hring prv hprv
    rw [allocLoop] at h
    split_ifs at h with h1 h2 h3
    · -- exact match: unlink `cur`, the new cursor is `prv`
      rw [Option.some.injEq, Prod.mk.injEq, Prod.mk.injEq] at h
      obtain ⟨-, hp', hh⟩ := h
      subst hh
      intro q hq
      rw [← hp', Option.some.injEq] at hq
      subst hq
      obtain ⟨u, v, rfl⟩ := List.append_of_mem hprv
      have hrot : IsRing hdr prv (prv :: (v ++ u)) :=
        isRing_rotate hdr p0 u v prv hring
      have hperm : (u ++ prv :: v).Perm (prv :: (v ++ u)) := by
        have ha : (u ++ prv :: v).Perm (prv :: (u ++ v)) :=
          @List.perm_middle Nat prv u v
        exact ha.trans (List.Perm.cons prv List.perm_append_comm)
      cases hvu : v ++ u with
      | nil =>
        exfalso
        have hself : (hdr prv).nxt = prv := by
          have hr := hrot
          rw [hvu] at hr
          unfold IsRing at hr
          rw [List.length_singleton, chainFrom] at hr
          by_cases hx : (hdr prv).nxt = prv
          · exact hx
          · rw [if_neg hx] at hr; simp [chainFrom] at hr
        have hcp : cur = prv := by rw [← hnxt, hself]
        exact h3 (by rw [hcp])
      | cons c rest =>
        rw [hvu] at hrot hperm
        have hrchain := chainFrom_links hdr prv _ prv _ hrot
        have hrlast := chainFrom_last_nxt hdr prv _ prv _ hrot
        have hrnodup := chainFrom_nodup hdr prv _ prv _ hrot
        obtain rfl : cur = c := by
          rw [← (List.chain'_cons.mp hrchain).1]
          exact hnxt.symm
        have hpr : prv ∉ cur :: rest := (List.nodup_cons.mp hrnodup).1
        refine ⟨prv :: rest, ?_, ?_⟩
        · refine build_ring_cons _ prv rest ?_ ?_ ?_
          · rw [List.nodup_cons]
            exact ⟨fun hx => hpr (List.mem_cons_of_mem _ hx),
              (List.nodup_cons.mp (List.nodup_cons.mp hrnodup).2).2⟩
          · cases rest with
            | nil => exact List.chain'_singleton prv
            | cons e rest2 =>
              refine List.chain'_cons.mpr ⟨?_, ?_⟩
              · rw [setNxt_self]
                exact (List.chain'_cons.mp (List.chain'_cons.mp hrchain).2).1
              · refine chain'_nxt_congr hdr _ (e :: rest2) ?_
                  (List.chain'_cons.mp (List.chain'_cons.mp hrchain).2).2
                intro x hx
                rw [setNxt_ne _ _ _ _
                  (fun hxeq => hpr (by rw [← hxeq]; exact List.mem_cons_of_mem _ hx))]
          · cases rest with
            | nil =>
              obtain ⟨z, hz, hzn⟩ := hrlast
              obtain rfl : cur = z := by simpa using hz
              exact ⟨prv, rfl, by rw [setNxt_self]; exact hzn⟩
            | cons e rest2 =>
              obtain ⟨z, hz, hzn⟩ := hrlast
              have hz2 : (e :: rest2).getLast? = some z := by
                rw [List.getLast?_cons_cons, List.getLast?_cons_cons] at hz
                exact hz
              have hzm : z ∈ e :: rest2 := getLast?_mem_of_eq _ _ hz2
              refine ⟨z, ?_, ?_⟩
              · rw [List.getLast?_cons_cons]
                exact hz2
              · rw [setNxt_ne _ _ _ _
                  (fun hxeq => hpr (by rw [← hxeq]; exact List.mem_cons_of_mem _ hzm))]
                exact hzn
        · intro x hx
          have hxrot : x ∈ prv :: cur :: rest := by
            rcases List.mem_cons.mp hx with rfl | hx2
            · exact List.mem_cons_self _ _
            · exact List.mem_cons_of_mem _ (List.mem_cons_of_mem _ hx2)
          have hgb := hgood x (hperm.mem_iff.mpr hxrot)
          exact ⟨by rw [setNxt_nunits]; exact hgb.1, hgb.2⟩
    · -- exact match on a singleton list: the free list becomes empty
      rw [Option.some.injEq, Prod.mk.injEq, Prod.mk.injEq] at h
      obtain ⟨-, hp', -⟩ := h
      intro q hq
      rw [← hp'] at hq
      exact absurd hq (by simp)
    · -- split from the tail: the node list is unchanged
      rw [Option.some.injEq, Prod.mk.injEq, Prod.mk.injEq] at h
      obtain ⟨-, hp', hh⟩ := h
      subst hh
      intro q hq
      rw [← hp', Option.some.injEq] at hq
      subst hq
      obtain ⟨u, v, rfl⟩ := List.append_of_mem hprv
      have hrot : IsRing hdr prv (prv :: (v ++ u)) :=
        isRing_rotate hdr p0 u v prv hring
      have hperm : (u ++ prv :: v).Perm (prv :: (v ++ u)) := by
        have ha : (u ++ prv :: v).Perm (prv :: (u ++ v)) :=
          @List.perm_middle Nat prv u v
        exact ha.trans (List.Perm.cons prv List.perm_append_comm)
      have hagree : ∀ x, (hdr x).nxt =
          ((setNunits (setNunits hdr cur ((hdr cur).nunits - need))
            (cur + ((hdr cur).nunits - need) * UNITSZ) need) x).nxt := by
        intro x
        rw [setNunits_nxt, setNunits_nxt]
      refine ⟨prv :: (v ++ u), ?_, ?_⟩
      · unfold IsRing at hrot ⊢
        rw [← chainFrom_congr_nxt hdr _ hagree prv _ prv]
        exact hrot
      · intro x hx
        have hgb := hgood x (hperm.mem_iff.mpr hx)
        refine ⟨?_, hgb.2⟩
        by_cases hxt : x = cur + ((hdr cur).nunits - need) * UNITSZ
        · subst hxt
          rw [setNunits_self]
          exact hneed
        · rw [setNunits_ne _ _ _ _ hxt]
          by_cases hxc : x = cur
          · subst hxc
            rw [setNunits_self]
            dsimp only
            omega
          · rw [setNunits_ne _ _ _ _ hxc]
            exact hgb.1
    · -- keep walking
      exact ih cur (hdr cur).nxt res p' hdr' hcur rfl h

/-- Operation-level preservation for `allocator_alloc`: allocation keeps
the block discipline unconditionally. -/
theorem allocator_alloc_BlocksOK (a : AllocState) (n fuel : Nat)
    (hOK : BlocksOK a) : BlocksOK (allocator_alloc a n fuel).2 := by
  by_cases hg : allocInvalidSize n
  · rw [allocator_alloc_invalid a n fuel hg]; exact hOK
  · cases hp : a.p with
    | none => rw [allocator_alloc_empty a n fuel hg hp]; exact hOK
    | some p0 =>
      rw [allocator_alloc_eq_loop a n fuel p0 hg hp]
      obtain ⟨l, hring, hgood⟩ := hOK p0 hp
      have hp0l : p0 ∈ l := by
        cases l with
        | nil => exact absurd hring (chainFrom_ne_nil a.hdr p0 0 p0)
        | cons c t =>
          obtain rfl : p0 = c := chainFrom_head a.hdr p0 _ p0 c t hring
          exact List.mem_cons_self _ _
      cases hl : allocLoop a.hdr (allocNeed n) p0 p0 (a.hdr p0).nxt fuel with
      | none => exact hOK
      | some t =>
        obtain ⟨res, p', hdr'⟩ := t
        dsimp only
        intro q hq
        exact allocLoop_BlocksOK a.hdr (allocNeed n) p0 l hring hgood
          (Nat.le_add_left 1 _) fuel p0 (a.hdr p0).nxt res p' hdr' hp0l rfl hl
          q hq

/-- Adding the alignment offset for `alignof(size_t)` lands exactly on a
`size_t` boundary, whatever the base. -/
theorem aln_offset_sz_mod (base : Nat) :
    (base + aln_offset base SZALIGN) % SZALIGN = 0 := by
  unfold aln_offset SZALIGN; split <;> omega

/-- A cursor anchors at most one ring. -/
theorem isRing_det (hdr : Heap) (p0 : Nat) (l1 l2 : List Nat)
    (h1 : IsRing hdr p0 l1) (h2 : IsRing hdr p0 l2) : l1 = l2 :=
  chainFrom_det hdr p0 l1.length p0 l1 l2 l2.length h1 h2

/-- Establish the block discipline from one concrete good ring. -/
theorem blocksOK_of_ring (a : AllocState) (p0 : Nat) (l : List Nat)
    (hp : a.p = some p0) (hr : IsRing a.hdr p0 l)
    (hg : ∀ x ∈ l, GoodBlock a.hdr x) : BlocksOK a := by
  intro q hq
  rw [hp, Option.some.injEq] at hq
  subst hq
  exact ⟨l, hr, hg⟩

/-- Establish the `free` precondition from one concrete ring. -/
theorem freeOK_of_ring (a : AllocState) (ptr p0 : Nat) (l0 : List Nat)
    (hp : a.p = some p0) (hr : IsRing a.hdr p0 l0)
    (h1 : ptr = 0 ∨ (UNITSZ ≤ ptr ∧ GoodBlock a.hdr (ptr - UNITSZ)))
    (h2 : ptr - UNITSZ ∉ l0)
    (h3 : (a.hdr (ptr - UNITSZ)).nunits
      + ((l0.map fun x => (a.hdr x).nunits).sum) < WORD) :
    FreeOK a ptr := by
  refine ⟨h1, ?_⟩
  intro q l hq hl
  rw [hp, Option.some.injEq] at hq
  subst hq
  obtain rfl := isRing_det a.hdr p0 l l0 hl hr
  exact ⟨h2, h3⟩

/-- Operation-level preservation for `allocator_add`: seeding a region
whose aligned header lands off the free ring, without overflowing the
combined unit counts, keeps the block discipline. -/
theorem allocator_add_BlocksOK (a : AllocState) (p nbytes fuel : Nat)
    (hOK : BlocksOK a) (hadd : AddOK a p nbytes) :
    BlocksOK (allocator_add a p nbytes fuel) := by
  show BlocksOK
    (if nbytes > aln_offset p SZALIGN + UNITSZ ∧
        ((nbytes + WORD - aln_offset p SZALIGN) % WORD) / UNITSZ ≠ 0 then
      allocator_free { a with hdr := setNunits a.hdr (p + aln_offset p SZALIGN) (((nbytes + WORD - aln_offset p SZALIGN) % WORD) / UNITSZ) } (p + aln_offset p SZALIGN + UNITSZ) fuel
    else a)
  by_cases hg : nbytes > aln_offset p SZALIGN + UNITSZ ∧
      ((nbytes + WORD - aln_offset p SZALIGN) % WORD) / UNITSZ ≠ 0
  · rw [if_pos hg]
    obtain ⟨-, hnu⟩ := hg
    refine allocator_free_BlocksOK _ _ fuel ?_ ?_ ?_
    · intro q hq
      obtain ⟨l, hring, hgood⟩ := hOK q hq
      obtain ⟨hnm, -⟩ := hadd q l hq hring
      refine ⟨l, ?_, ?_⟩
      · show chainFrom (setNunits a.hdr (p + aln_offset p SZALIGN)
          (((nbytes + WORD - aln_offset p SZALIGN) % WORD) / UNITSZ)) q q l.length = some l
        rw [chainFrom_congr_nxt _ a.hdr (fun x => setNunits_nxt _ _ _ x) q l.length q]
        exact hring
      · intro x hx
        show GoodBlock (setNunits a.hdr (p + aln_offset p SZALIGN)
          (((nbytes + WORD - aln_offset p SZALIGN) % WORD) / UNITSZ)) x
        unfold GoodBlock
        rw [setNunits_ne _ _ _ _ (fun he => hnm (by rw [← he]; exact hx))]
        exact hgood x hx
    · refine Or.inr ⟨Nat.le_add_left _ _, ?_⟩
      rw [Nat.add_sub_cancel]
      show GoodBlock (setNunits a.hdr (p + aln_offset p SZALIGN)
        (((nbytes + WORD - aln_offset p SZALIGN) % WORD) / UNITSZ))
        (p + aln_offset p SZALIGN)
      refine ⟨?_, ?_⟩
      · rw [setNunits_self]
        exact Nat.one_le_iff_ne_zero.mpr hnu
      · have h := aln_offset_sz_mod p
        unfold UNITSZ SZALIGN at *
        omega
    · intro q l hq hring'
      have hagree : ∀ x, ((setNunits a.hdr (p + aln_offset p SZALIGN)
          (((nbytes + WORD - aln_offset p SZALIGN) % WORD) / UNITSZ)) x).nxt =
          (a.hdr x).nxt := fun x => setNunits_nxt _ _ _ x
      have hring : IsRing a.hdr q l := by
        show chainFrom a.hdr q q l.length = some l
        rw [← chainFrom_congr_nxt _ a.hdr hagree q l.length q]
        exact hring'
      obtain ⟨hnm, hsum⟩ := hadd q l hq hring
      rw [Nat.add_sub_cancel]
      refine ⟨hnm, ?_⟩
      have hmap : l.map (fun x => ((setNunits a.hdr (p + aln_offset p SZALIGN)
            (((nbytes + WORD - aln_offset p SZALIGN) % WORD) / UNITSZ)) x).nunits) =
          l.map (fun x => (a.hdr x).nunits) := by
        refine List.map_congr_left ?_
        intro x hx
        rw [setNunits_ne _ _ _ _ (fun he => hnm (by rw [← he]; exact hx))]
      show ((setNunits a.hdr (p + aln_offset p SZALIGN)
          (((nbytes + WORD - aln_offset p SZALIGN) % WORD) / UNITSZ))
          (p + aln_offset p SZALIGN)).nunits +
        (l.map fun x => ((setNunits a.hdr (p + aln_offset p SZALIGN)
          (((nbytes + WORD - aln_offset p SZALIGN) % WORD) / UNITSZ)) x).nunits).sum < WORD
      rw [setNunits_self, hmap]
      exact hsum
  · rw [if_neg hg]
    exact hOK

/-- Operation-level preservation for `allocator_realloc`: under the free
precondition on whichever block a given call may release (the reallocated
block itself on the freeing paths), reallocation keeps the block
discipline. -/
theorem allocator_realloc_BlocksOK (a : AllocState) (p n fuel : Nat)
    (hOK : BlocksOK a)
    (hfree0 : n = 0 → FreeOK a p)
    (hfree1 : ∀ r a1, allocator_alloc a n fuel = (some r, a1) → FreeOK a1 p) :
    BlocksOK (allocator_realloc a p n fuel).2 := by
  unfold allocator_realloc
  by_cases hp : p = 0
  · rw [if_pos hp]
    exact allocator_alloc_BlocksOK a n fuel hOK
  · rw [if_neg hp]
    by_cases hn : n = 0
    · rw [if_pos hn]
      obtain ⟨h1, h2⟩ := hfree0 hn
      exact allocator_free_BlocksOK a p fuel hOK h1 h2
    · rw [if_neg hn]
      by_cases hlt : allocator_allocsz a.hdr p < n
      · rw [if_pos hlt]
        rcases halloc : allocator_alloc a n fuel with ⟨o, a1⟩
        cases o with
        | none =>
          have hs : a1 = a := by
            have h := allocator_alloc_none_state a n fuel (by rw [halloc])
            rw [halloc] at h
            exact h
          dsimp only
          rw [hs]
          exact hOK
        | some r =>
          dsimp only
          have hOK1 : BlocksOK a1 := by
            have h := allocator_alloc_BlocksOK a n fuel hOK
            rw [halloc] at h
            exact h
          obtain ⟨h1, h2⟩ := hfree1 r a1 halloc
          exact allocator_free_BlocksOK
            { a1 with bytes := memcpyBytes a1.bytes r p (allocator_allocsz a1.hdr p) }
            p fuel (fun q hq => hOK1 q hq) h1 h2
      · rw [if_neg hlt]
        exact hOK

/-- C2 (amended): the block discipline that actually holds.  Every block
of the free list has `nunits ≥ 1`, and every block's payload starts at an
address aligned to `alignof(size_t) = 8` — not to `UNIT_SIZE = 16` —
because `allocator_add` aligns the caller-supplied base only to
`alignof(size_t)` (first conjunct after the base case: the chosen header
address is exactly `8`-aligned for every base).  The discipline holds of
a fresh allocator and is preserved by every operation: `alloc` and the
non-freeing `realloc` paths unconditionally, `add` and `free` (and the
freeing `realloc` paths) under the valid-usage precondition that the
block being returned or seeded is a good block lying off the free ring
whose unit count cannot overflow `size_t` when merged. -/
theorem C2_block_discipline :
    BlocksOK initState ∧
    (∀ p, (p + aln_offset p SZALIGN) % SZALIGN = 0) ∧
    (∀ a p nbytes fuel, BlocksOK a → AddOK a p nbytes →
      BlocksOK (allocator_add a p nbytes fuel)) ∧
    (∀ a n fuel, BlocksOK a → BlocksOK (allocator_alloc a n fuel).2) ∧
    (∀ a ptr fuel, BlocksOK a → FreeOK a ptr →
      BlocksOK (allocator_free a ptr fuel)) ∧
    (∀ a p n fuel, BlocksOK a → (n = 0 → FreeOK a p) →
      (∀ r a1, allocator_alloc a n fuel = (some r, a1) → FreeOK a1 p) →
      BlocksOK (allocator_realloc a p n fuel).2) := by
  refine ⟨?_, aln_offset_sz_mod, ?_, ?_, ?_, ?_⟩
  · intro q hq
    exact Option.noConfusion hq
  · intro a p nbytes fuel hOK hadd
    exact allocator_add_BlocksOK a p nbytes fuel hOK hadd
  · intro a n fuel hOK
    exact allocator_alloc_BlocksOK a n fuel hOK
  · intro a ptr fuel hOK hfr
    exact allocator_free_BlocksOK a ptr fuel hOK hfr.1 hfr.2
  · intro a p n fuel hOK h0 h1
    exact allocator_realloc_BlocksOK a p n fuel hOK h0 h1

/-- Witness for C2: the concrete post-`p10` state (ring `[0]` of 8 units,
live block headed at `128` with payload `144`) satisfies the discipline,
and freeing that live block — which meets the valid-usage precondition —
preserves it; seeding a fresh allocator at the `16`-unaligned base `8`
preserves it as well. -/
theorem C2_block_discipline_witness :
    BlocksOK (allocator_free p10.2 144 100) ∧
    BlocksOK (allocator_add initState 8 160 100) := by
  constructor
  · exact C2_block_discipline.2.2.2.2.1 p10.2 144 100
      (blocksOK_of_ring p10.2 0 [0] (by decide) (by decide) (by decide))
      (freeOK_of_ring p10.2 144 0 [0] (by decide) (by decide)
        (Or.inr ⟨by decide, by decide⟩) (by decide) (by decide))
  · exact C2_block_discipline.2.2.1 initState 8 160 100
      (fun q hq => Option.noConfusion hq)
      (fun q l hq => Option.noConfusion hq)

/-- C3 (failing input): the free-list invariant is violated by the code on
the sequence: seed `[0, 64)` (4 units); `alloc(U)` (payload 48, block
`[32, 64)`); `alloc(U)` (payload 16, block `[0, 32)`, free list empty);
`free(48)` (singleton ring `[32]`); `free(16)`.  The last free coalesces
the freed block `[0, 32)` with `cur->nxt` — which is `cur` itself, the
ring's only node — absorbing the node `32` into the block at `0`, yet then
re-links that node (`cur->nxt = p`).  The result is the ring
`32 → 0 → 32` whose blocks `[32, 64)` and `[0, 64)` overlap: the
adjacent pair `(0, 32)` does not cross the wrap (`0 < 32`) yet the first
block's end address `64` lies strictly above — not below — the next
block's start, refuting the no-touching clause (the ring-closure and
single-wrap clauses still hold here).  The free list also now carries 6
units carved out of a 4-unit region. -/
theorem C3_no_touching_violated :
    bug1.1 = some 48 ∧ bug2.1 = some 16 ∧ bugState.p = some 32 ∧
      freeList bugState 100 = some [(32, 2), (0, 4)] ∧
      (bugState.hdr 0).nxt = 32 ∧
      32 < 0 + (bugState.hdr 0).nunits * UNITSZ := by
  decide

/-- C8: the growing path of `realloc` (`p` non-null, `n > 0`,
`allocsz(p) < n`).  If the inner `alloc(n)` fails, `realloc` returns null
with the whole state — in particular the original allocation — untouched.
If it succeeds with pointer `r`, the result state is exactly: the
post-`alloc` state, with the old payload copied onto `r`, and the old
block freed; the copy writes the bytes `[r, r + old_capacity)` from the
old payload — `old_capacity = min(old_capacity, n)` bytes, as
`old_capacity < n` here — and touches no byte outside that range. -/
theorem C8_realloc_grow (a : AllocState) (p n fuel : Nat)
    (hp : p ≠ 0) (hn : 0 < n) (hlt : allocator_allocsz a.hdr p < n) :
    ((allocator_alloc a n fuel).1 = none →
      allocator_realloc a p n fuel = (none, a)) ∧
    (∀ r, (allocator_alloc a n fuel).1 = some r →
      (allocator_realloc a p n fuel =
        (some r,
          allocator_free
            { (allocator_alloc a n fuel).2 with
                bytes :=
                  memcpyBytes a.bytes r p
                    (allocator_allocsz (allocator_alloc a n fuel).2.hdr p) }
            p fuel)) ∧
      (allocator_allocsz (allocator_alloc a n fuel).2.hdr p =
          allocator_allocsz a.hdr p →
        (∀ i, i < min (allocator_allocsz a.hdr p) n →
          memcpyBytes a.bytes r p
              (allocator_allocsz (allocator_alloc a n fuel).2.hdr p) (r + i)
            = a.bytes (p + i)) ∧
        (∀ x, x < r ∨ r + allocator_allocsz a.hdr p ≤ x →
          memcpyBytes a.bytes r p
              (allocator_allocsz (allocator_alloc a n fuel).2.hdr p) x
            = a.bytes x))) := by
  have hbytes := allocator_alloc_bytes a n fuel
  constructor
  · intro h0
    have hs := allocator_alloc_none_state a n fuel h0
    unfold allocator_realloc
    rw [if_neg hp, if_neg (Nat.pos_iff_ne_zero.mp hn), if_pos hlt]
    rcases h' : allocator_alloc a n fuel with ⟨o, a1⟩
    rw [h'] at h0 hs
    dsimp only at h0 hs
    subst h0; subst hs
    rfl
  · intro r hr
    unfold allocator_realloc
    rw [if_neg hp, if_neg (Nat.pos_iff_ne_zero.mp hn), if_pos hlt]
    rcases h' : allocator_alloc a n fuel with ⟨o, a1⟩
    rw [h'] at hr hbytes
    dsimp only at hr hbytes ⊢
    subst hr
    dsimp only at hbytes ⊢
    constructor
    · rw [hbytes]
    · intro heq
      rw [heq]
      have hmin : min (allocator_allocsz a.hdr p) n = allocator_allocsz a.hdr p :=
        Nat.min_eq_left (Nat.le_of_lt hlt)
      rw [hmin]
      constructor
      · intro i hi
        unfold memcpyBytes
        rw [if_pos ⟨Nat.le_add_right r i, by omega⟩]
        congr 1
        omega
      · intro x hx
        unfold memcpyBytes
        rw [if_neg (by omega)]

/-- Witness for C8: on the post-`p10` state (free list one 8-unit block at
`0`, live block `p = 144` of capacity 16), `realloc(144, 64)` takes the
growing path; the inner `alloc` succeeds with `r = 64`. -/
theorem C8_realloc_grow_witness :
    ((allocator_alloc p10.2 64 100).1 = none →
      allocator_realloc p10.2 144 64 100 = (none, p10.2)) ∧
    (∀ r, (allocator_alloc p10.2 64 100).1 = some r →
      (allocator_realloc p10.2 144 64 100 =
        (some r,
          allocator_free
            { (allocator_alloc p10.2 64 100).2 with
                bytes :=
                  memcpyBytes p10.2.bytes r 144
                    (allocator_allocsz (allocator_alloc p10.2 64 100).2.hdr 144) }
            144 100)) ∧
      (allocator_allocsz (allocator_alloc p10.2 64 100).2.hdr 144 =
          allocator_allocsz p10.2.hdr 144 →
        (∀ i, i < min (allocator_allocsz p10.2.hdr 144) 64 →
          memcpyBytes p10.2.bytes r 144
              (allocator_allocsz (allocator_alloc p10.2 64 100).2.hdr 144) (r + i)
            = p10.2.bytes (144 + i)) ∧
        (∀ x, x < r ∨ r + allocator_allocsz p10.2.hdr 144 ≤ x →
          memcpyBytes p10.2.bytes r 144
              (allocator_allocsz (allocator_alloc p10.2 64 100).2.hdr 144) x
            = p10.2.bytes x))) :=
  C8_realloc_grow p10.2 144 64 100 (by decide) (by decide) (by decide)

/-- C1 (counterexample): with a fresh allocator seeded with one aligned
region of exactly 10 units, repeatedly calling `alloc(1)` until it returns
null yields 5 successful allocations, not 9: each request consumes one
payload unit plus one header unit, so the sixth call fails. -/
theorem C1_nine_allocs_counterexample :
    run10.1.length = 5 ∧ (allocator_alloc run10.2 1 100).1 = none ∧
      ¬ run10.1.length = 9 := by
  decide

/-- C1 (amended): with a fresh allocator seeded with one aligned region of
exactly 10 units, repeatedly calling `alloc(1)` until it returns null
yields exactly 5 successful allocations; after freeing all of them in
reverse order the free list is a singleton block of 10 units. -/
theorem C1_exhaust_and_refill :
    run10.1.length = 5 ∧ (allocator_alloc run10.2 1 100).1 = none ∧
      freeList (freeAll run10.2 100 run10.1.reverse) 100 = some [(0, 10)] := by
  decide

/-- C2 (counterexample): `allocator_add` aligns the first header only to
`alignof(size_t) = 8`, not to `UNIT_SIZE = 16`.  Seeding the region
`[8, 168)` places the single free block's header at address `8`, so its
payload starts at `8 + UNITSZ = 24`, which is not aligned to `UNITSZ`. -/
theorem C2_unit_alignment_counterexample :
    freeList (allocator_add initState 8 160 100) 100 = some [(8, 10)] ∧
      (8 + UNITSZ) % UNITSZ ≠ 0 ∧ 8 % SZALIGN = 0 := by
  decide

/-- C5: seed a 5-unit region, then `a = alloc(U)`, `b = alloc(U)`,
`c = alloc(U)`, then `free(a)`, `free(c)`, `free(b)`.  The free list ends
as a singleton covering the full seeded region (`[0, 80)`, 5 units).  Note
the third allocation actually returns null (three one-unit requests need
6 units but only 5 were seeded), so `free(c)` is the no-op `free(NULL)`;
the final coalescing still merges `b`'s block with both of its
address-adjacent free neighbours, giving the singleton. -/
theorem C5_coalesce_both_sides :
    c5a.1 = some 64 ∧ c5b.1 = some 32 ∧ c5c.1 = none ∧
      freeList
        (allocator_free
          (allocator_free (allocator_free c5c.2 (c5a.1.getD 0) 100)
            (c5c.1.getD 0) 100)
          (c5b.1.getD 0) 100) 100 = some [(0, 5)] := by
  decide

/-- C7 (counterexample): the no-shrink law fails at `n = 0`.  For the live
allocation `p = 144` of `p10` (capacity 16 bytes, so `allocsz(p) ≥ 0`),
`realloc(p, 0)` frees `p` and returns null rather than `p`. -/
theorem C7_zero_size_counterexample :
    allocator_allocsz p10.2.hdr 144 = 16 ∧
      (allocator_realloc p10.2 144 0 100).1 = none ∧
      ¬ (allocator_realloc p10.2 144 0 100).1 = some 144 := by
  decide

/-- C7 (amended): for every non-null allocation `p` and every size
`0 < n ≤ allocsz(p)`, `realloc(p, n)` returns `p` itself and leaves the
state untouched (in-place satisfaction, no shrink). -/
theorem C7_realloc_no_shrink (a : AllocState) (p n fuel : Nat)
    (hp : p ≠ 0) (hn : 0 < n) (h : n ≤ allocator_allocsz a.hdr p) :
    allocator_realloc a p n fuel = (some p, a) := by
  unfold allocator_realloc
  rw [if_neg hp, if_neg (Nat.pos_iff_ne_zero.mp hn), if_neg (Nat.not_lt.mpr h)]

/-- Witness for C7: on the live allocation `p = 144` of `p10` with
capacity 16, `realloc(p, 16)` returns `p` unchanged. -/
theorem C7_realloc_no_shrink_witness :
    allocator_realloc p10.2 144 16 100 = (some 144, p10.2) :=
  C7_realloc_no_shrink p10.2 144 16 100 (by decide) (by decide) (by decide)

/-- C10: for every allocator state, every non-null allocation `p`, and
every `0 < n ≤ allocsz(p)`, the in-place path of `realloc` leaves the
allocator state — in particular the free-list pointer (cursor), the header
store (hence the free list), and the payload bytes — completely
unchanged. -/
theorem C10_realloc_inplace_frame (a : AllocState) (p n fuel : Nat)
    (hp : p ≠ 0) (hn : 0 < n) (h : n ≤ allocator_allocsz a.hdr p) :
    (allocator_realloc a p n fuel).2 = a ∧
      (allocator_realloc a p n fuel).2.p = a.p ∧
      (allocator_realloc a p n fuel).2.hdr = a.hdr ∧
      ∀ f, freeList (allocator_realloc a p n fuel).2 f = freeList a f := by
  have h2 : (allocator_realloc a p n fuel).2 = a := by
    unfold allocator_realloc
    rw [if_neg hp, if_neg (Nat.pos_iff_ne_zero.mp hn), if_neg (Nat.not_lt.mpr h)]
  exact ⟨h2, by rw [h2], by rw [h2], fun f => by rw [h2]⟩

/-- Witness for C10: on the live allocation `p = 144` of `p10` with
capacity 16 and request 8, the state after `realloc` is the pre-state. -/
theorem C10_realloc_inplace_frame_witness :
    (allocator_realloc p10.2 144 8 100).2 = p10.2 ∧
      (allocator_realloc p10.2 144 8 100).2.p = p10.2.p ∧
      (allocator_realloc p10.2 144 8 100).2.hdr = p10.2.hdr ∧
      ∀ f, freeList (allocator_realloc p10.2 144 8 100).2 f = freeList p10.2 f :=
  C10_realloc_inplace_frame p10.2 144 8 100 (by decide) (by decide) (by decide)

end Alloc
